import Mathlib

/-!
Verification development for the Dev-Agency context-optimizer subsystem
(`src/tools/context_optimizer/`): the LRU/TTL/compressing cache
(`cache_manager.py`), the pruning strategies and their validation gates
(`pruning/base.py`, `pruning/code_pruner.py`, `pruning/generic_pruner.py`),
the strategy orchestrator (`pruning/strategies.py`) and the cache-facing part
of the optimization engine (`optimizer.py`).

Python strings are embedded as `List Char` (named `PyStr`); `str.splitlines`
is modelled for newline-delimited text (the rare `\r`-style separators are
not used by the repository's own line processing, which always rejoins with
`'\n'.join`).  CPython floats are embedded as rationals, machine-level
hashing (`hashlib.sha256`) and compression (`gzip`) as abstract function
parameters, since only their determinism matters to the specification.
-/

namespace DevAgency

/-- Python `str` values, embedded as lists of characters. -/
abbrev PyStr := List Char

/-- Characters stripped by Python `str.strip()` (ASCII whitespace). -/
def pyIsSpace (c : Char) : Bool :=
  c = ' ' || c = '\t' || c = '\n' || c = '\r' || c = '\x0b' || c = '\x0c'

/-- Python `str.lstrip()`. -/
def lstripPy (s : PyStr) : PyStr := s.dropWhile pyIsSpace

/-- Python `str.rstrip()`: drop the trailing run of whitespace.  (A
character is kept exactly when something non-whitespace survives to its
right, or it is non-whitespace itself.) -/
def rstripPy : PyStr → PyStr
  | [] => []
  | c :: t =>
    if (rstripPy t).isEmpty && pyIsSpace c then [] else c :: rstripPy t

/-- Python `str.strip()`. -/
def stripPy (s : PyStr) : PyStr := rstripPy (lstripPy s)

/-- Python `not line.strip()`: the line is empty or whitespace-only. -/
def isBlank (s : PyStr) : Bool := (stripPy s).isEmpty

/-- Python `len(line) - len(line.lstrip())`: number of leading whitespace
characters. -/
def leadingWs (s : PyStr) : Nat := (s.takeWhile pyIsSpace).length

/-- Python `len(s.encode('utf-8'))`: UTF-8 byte length. -/
def utf8Len (s : PyStr) : Nat := (s.map Char.utf8Size).sum

/-- Split on `'\n'` keeping a (possibly empty) final piece, as
`str.split('\n')` would. -/
def splitNl : PyStr → List PyStr
  | [] => [[]]
  | c :: rest =>
    match splitNl rest with
    | [] => [[]]
    | l :: ls => if c = '\n' then [] :: l :: ls else (c :: l) :: ls

/-- Python `str.splitlines()` for `'\n'`-separated text: like
`split('\n')` but without a trailing empty piece. -/
def pySplitlines (s : PyStr) : List PyStr :=
  match splitNl s with
  | [] => []
  | ls => if ls.getLast? = some [] then ls.dropLast else ls

/-- Python `'\n'.join(lines)`. -/
def joinNl : List PyStr → PyStr
  | [] => []
  | [l] => l
  | l :: l2 :: ls => l ++ '\n' :: joinNl (l2 :: ls)

/-- Characters matched by the character class `[ \t]`. -/
def isSpaceTab (c : Char) : Bool := c = ' ' || c = '\t'

/-- Worker for `squeezeWs`; the flag records whether we are inside a
run of spaces/tabs already replaced by a single `' '`. -/
def squeezeAux : Bool → PyStr → PyStr
  | _, [] => []
  | inRun, c :: rest =>
    if isSpaceTab c then
      if inRun then squeezeAux true rest else ' ' :: squeezeAux true rest
    else c :: squeezeAux false rest

/-- Python `re.sub(r'[ \t]+', ' ', s)`: collapse each maximal run of
spaces/tabs to a single space. -/
def squeezeWs (s : PyStr) : PyStr := squeezeAux false s

/-- Per-line transform of `CodePruner._compress_whitespace`
(code_pruner.py:379-383) for a non-blank line: keep the leading
whitespace width as spaces, squeeze the stripped remainder. -/
def codeCompressLine (l : PyStr) : PyStr :=
  List.replicate (leadingWs l) ' ' ++ squeezeWs (stripPy l)

/-- Line loop of `CodePruner._compress_whitespace` (code_pruner.py:365-386):
blank lines collapse to a single empty line per run (`prev_blank` flag),
other lines go through `codeCompressLine`. -/
def codeCompressLinesAux : Bool → List PyStr → List PyStr
  | _, [] => []
  | prevBlank, l :: ls =>
    if isBlank l then
      if prevBlank then codeCompressLinesAux true ls
      else [] :: codeCompressLinesAux true ls
    else codeCompressLine l :: codeCompressLinesAux false ls

/-- `CodePruner._compress_whitespace` (code_pruner.py:365-386). -/
def codeCompressWhitespace (s : PyStr) : PyStr :=
  joinNl (codeCompressLinesAux false (pySplitlines s))

/-- Shared line loop of `CodePruner._remove_excessive_blank_lines`
(code_pruner.py:388-403) and `GenericPruner._remove_excessive_empty_lines`
(generic_pruner.py:161-177): keep at most 2 consecutive blank lines,
preserving the blank lines' original text. -/
def keepBlank2Aux : Nat → List PyStr → List PyStr
  | _, [] => []
  | blankCount, l :: ls =>
    if isBlank l then
      if blankCount + 1 ≤ 2 then l :: keepBlank2Aux (blankCount + 1) ls
      else keepBlank2Aux (blankCount + 1) ls
    else l :: keepBlank2Aux 0 ls

/-- `CodePruner._remove_excessive_blank_lines` (code_pruner.py:388-403). -/
def codeRemoveExcessiveBlankLines (s : PyStr) : PyStr :=
  joinNl (keepBlank2Aux 0 (pySplitlines s))

/-- `CodePruner._safe_prune` (code_pruner.py:513-518): remove excessive
blank lines, then compress whitespace. -/
def codeSafePrune (s : PyStr) : PyStr :=
  codeCompressWhitespace (codeRemoveExcessiveBlankLines s)

/-- Width, in spaces, of the indentation `GenericPruner._compress_whitespace`
reconstructs: `'  ' * min(leading // 4, 8)` (generic_pruner.py:149-150). -/
def genIndentWidth (lw : Nat) : Nat := 2 * min (lw / 4) 8

/-- Per-line transform of `GenericPruner._compress_whitespace`
(generic_pruner.py:143-157). -/
def genCompressLine (l : PyStr) : PyStr :=
  if leadingWs l > 0 then
    List.replicate (genIndentWidth (leadingWs l)) ' ' ++ squeezeWs (stripPy l)
  else squeezeWs (stripPy l)

/-- `GenericPruner._compress_whitespace` (generic_pruner.py:138-159). -/
def genCompressWhitespace (s : PyStr) : PyStr :=
  joinNl ((pySplitlines s).map genCompressLine)

/-- `GenericPruner._remove_excessive_empty_lines` (generic_pruner.py:161-177). -/
def genRemoveExcessiveEmptyLines (s : PyStr) : PyStr :=
  joinNl (keepBlank2Aux 0 (pySplitlines s))

/-- `GenericPruner._safe_generic_prune` (generic_pruner.py:274-279):
compress whitespace, then remove excessive empty lines. -/
def genSafePrune (s : PyStr) : PyStr :=
  genRemoveExcessiveEmptyLines (genCompressWhitespace s)

example : codeSafePrune "a\n\n\n".toList = "a\n".toList := by decide
example : codeSafePrune "a\n".toList = "a".toList := by decide
example : genSafePrune "    a".toList = "  a".toList := by decide
example : genSafePrune "  a".toList = "a".toList := by decide

/-! ## Cache model (`cache_manager.py`, class `ContextCache`)

The in-memory behaviour is embedded; the disk-mirroring of `_persist_entry`
and `_load_persistent_cache` (pure I/O duplication of the in-memory data) is
not, matching a cache constructed with `persistent=False`.  `time.time()` is
an explicit `now : ℤ` argument of each operation, and `gzip.compress` /
`gzip.decompress` are abstract function parameters `gz` / `gunz`.  The
diagnostic-only statistics (`average_access_time_ms`, `cache_hit_rate`) are
omitted; the metadata entries `original_size`, `compressed` and
`compression_ratio` that `set` merges into the entry's metadata dict are
kept as entry fields, with caller-supplied metadata in `userMeta`. -/

/-- Payload stored by a `CacheEntry`: either the original text (Python
`str`) or gzip output (Python `bytes`, as a byte list). -/
inductive StoredContent where
  | raw (s : PyStr)
  | comp (bs : List Nat)
deriving DecidableEq

/-- Stored size of the payload: byte length of the text's UTF-8 encoding,
or the length of the compressed bytes (cache_manager.py:196-198). -/
def storedSizeBytes : StoredContent → Nat
  | .raw s => utf8Len s
  | .comp bs => bs.length

/-- Dataclass `CacheEntry` (cache_manager.py:23-43). -/
structure CacheEntry (α : Type) where
  key : String
  content : StoredContent
  userMeta : α
  originalSize : Nat
  compressed : Bool
  compressionRatio : ℚ
  createdAt : ℤ
  accessedAt : ℤ
  accessCount : Nat
  sizeBytes : Nat
deriving DecidableEq

/-- Dataclass `CacheStats` (cache_manager.py:46-71), without the two
diagnostic float fields. -/
structure CacheStats where
  totalEntries : Nat
  totalSizeBytes : Nat
  hitCount : Nat
  missCount : Nat
  evictionCount : Nat
  compressionSavingsBytes : ℤ
deriving DecidableEq

/-- `CacheStats.empty` (cache_manager.py:59-71). -/
def CacheStats.empty : CacheStats :=
  { totalEntries := 0, totalSizeBytes := 0, hitCount := 0, missCount := 0,
    evictionCount := 0, compressionSavingsBytes := 0 }

/-- Constructor arguments of `ContextCache.__init__` (cache_manager.py:87-104)
that the claims depend on: `max_size_bytes`, `ttl_seconds`,
`compression_enabled`. -/
structure CacheConfig where
  maxSizeBytes : Nat
  ttlSeconds : ℤ
  compressionEnabled : Bool
deriving DecidableEq

/-- Mutable state of a `ContextCache`: the `_cache` dict (as an association
list), the `_access_order` LRU list, and `_stats`. -/
structure CacheState (α : Type) where
  cache : List (String × CacheEntry α)
  accessOrder : List String
  stats : CacheStats
deriving DecidableEq

/-- State of a freshly constructed non-persistent cache. -/
def emptyCacheState (α : Type) : CacheState α :=
  { cache := [], accessOrder := [], stats := CacheStats.empty }

/-- Python `self._cache.get(key)`. -/
def lookupEntry (c : List (String × CacheEntry α)) (k : String) :
    Option (CacheEntry α) :=
  (c.find? (fun p => p.1 == k)).map (·.2)

/-- Python `del self._cache[key]` (the dict holds each key at most once, so
removing every binding of `k` agrees with deleting the unique one). -/
def eraseKey (c : List (String × CacheEntry α)) (k : String) :
    List (String × CacheEntry α) :=
  c.filter (fun p => p.1 != k)

/-- Python `self._cache[key] = entry`.  The binding's position in the
association list is irrelevant to every verified property (only lookups and
the sum of sizes are observed), so the rebound key is placed at the end. -/
def setEntry (c : List (String × CacheEntry α)) (k : String)
    (e : CacheEntry α) : List (String × CacheEntry α) :=
  eraseKey c k ++ [(k, e)]

/-- Python `sum(e.size_bytes for e in self._cache.values())`. -/
def totalSizeOf (c : List (String × CacheEntry α)) : Nat :=
  (c.map (fun p => p.2.sizeBytes)).sum

/-- `ContextCache._update_access_order` (cache_manager.py:395-399):
`List.erase` removes the first occurrence and is the identity when the key
is absent, matching the guarded `remove` + `append`. -/
def updateAccessOrder (order : List String) (k : String) : List String :=
  order.erase k ++ [k]

/-- `ContextCache._remove_entry` (cache_manager.py:401-420), without the
persistent-file unlink. -/
def removeEntry (s : CacheState α) (k : String) : CacheState α :=
  let c := eraseKey s.cache k
  { s with
    cache := c
    accessOrder := s.accessOrder.erase k
    stats := { s.stats with totalEntries := c.length,
                            totalSizeBytes := totalSizeOf c } }

/-- `CacheEntry.is_expired` (cache_manager.py:36-38):
`(time.time() - self.created_at) > ttl_seconds`. -/
def isExpired (cfg : CacheConfig) (now : ℤ) (e : CacheEntry α) : Bool :=
  now - e.createdAt > cfg.ttlSeconds

/-- `CacheEntry.touch` (cache_manager.py:40-43). -/
def touch (now : ℤ) (e : CacheEntry α) : CacheEntry α :=
  { e with accessedAt := now, accessCount := e.accessCount + 1 }

/-- `ContextCache._compress_content` (cache_manager.py:329-354).  `gz`
abstracts `gzip.compress` on the UTF-8 encoding; the float literal `0.8` is
the rational `4/5`.  (The dead `except` branch around `gzip.compress` is not
modelled: `gz` is a total function.) -/
def compressContent (cfg : CacheConfig) (gz : PyStr → List Nat)
    (content : PyStr) : StoredContent × ℚ :=
  if !cfg.compressionEnabled then (.raw content, 1)
  else if utf8Len content < 1024 then (.raw content, 1)
  else
    let cb := gz content
    let ratio : ℚ := (cb.length : ℚ) / (utf8Len content : ℚ)
    if ratio < 4/5 then (.comp cb, ratio) else (.raw content, 1)

/-- `ContextCache._decompress_content` (cache_manager.py:356-369).  When the
`compressed` flag is unset Python returns the stored object unchanged; the
flag is set exactly when bytes are stored, so the `comp`-without-flag branch
is unreachable and modelled as the empty string. -/
def decompressContent (gunz : List Nat → PyStr) (compressed : Bool) :
    StoredContent → PyStr
  | .raw s => s
  | .comp bs => if compressed then gunz bs else []

/-- Eviction loop of `ContextCache._make_space_for_entry`
(cache_manager.py:376-393): while the running size exceeds `target` and the
access-order list is non-empty, pop its head; a head present in the cache is
removed (`_remove_entry`) and counted as an eviction, a stale head is merely
dropped from the order.  Returns the surviving cache, the remaining order
and the number of evictions. -/
def msLoop (target : ℤ) :
    List String → List (String × CacheEntry α) → ℤ →
    List (String × CacheEntry α) × List String × Nat
  | [], c, _ => (c, [], 0)
  | k :: rest, c, cur =>
    if cur > target then
      match lookupEntry c k with
      | some e =>
        let r := msLoop target rest (eraseKey c k) (cur - e.sizeBytes)
        (r.1, r.2.1, r.2.2 + 1)
      | none => msLoop target rest c cur
    else (c, k :: rest, 0)

/-- `ContextCache.set` (cache_manager.py:173-244), without the persistence
mirror.  Returns the Boolean result together with the new state. -/
def setOp (cfg : CacheConfig) (gz : PyStr → List Nat) (now : ℤ) (k : String)
    (content : PyStr) (meta : α) (s : CacheState α) : Bool × CacheState α :=
  if content.isEmpty then (false, s)
  else
    let sc := compressContent cfg gz content
    let origSize := utf8Len content
    let size := storedSizeBytes sc.1
    let entry : CacheEntry α :=
      { key := k, content := sc.1, userMeta := meta, originalSize := origSize,
        compressed := sc.2 < 1, compressionRatio := sc.2, createdAt := now,
        accessedAt := now, accessCount := 1, sizeBytes := size }
    let hasSpace := totalSizeOf s.cache + size ≤ cfg.maxSizeBytes
    let r := if hasSpace then (s.cache, s.accessOrder, 0)
             else msLoop ((cfg.maxSizeBytes : ℤ) - size) s.accessOrder s.cache
                    (totalSizeOf s.cache : ℤ)
    let c2 := setEntry r.1 k entry
    (true,
     { cache := c2
       accessOrder := updateAccessOrder r.2.1 k
       stats := { s.stats with
         totalEntries := c2.length
         totalSizeBytes := totalSizeOf c2
         evictionCount := s.stats.evictionCount + r.2.2
         compressionSavingsBytes := s.stats.compressionSavingsBytes +
           (if sc.2 < 1 then (origSize : ℤ) - (size : ℤ) else 0) } })

/-- Successful result of `ContextCache.get`: the dictionary built at
cache_manager.py:166-171. -/
structure CacheHit (α : Type) where
  content : PyStr
  userMeta : α
  cachedAt : ℤ
  accessCount : Nat
deriving DecidableEq

/-- `ContextCache.get` (cache_manager.py:120-171), without the two
diagnostic timing statistics. -/
def getOp (cfg : CacheConfig) (gunz : List Nat → PyStr) (now : ℤ) (k : String)
    (s : CacheState α) : Option (CacheHit α) × CacheState α :=
  match lookupEntry s.cache k with
  | none =>
    (none, { s with stats := { s.stats with missCount := s.stats.missCount + 1 } })
  | some e =>
    if isExpired cfg now e then
      let s1 := removeEntry s k
      (none, { s1 with stats := { s1.stats with missCount := s1.stats.missCount + 1 } })
    else
      let e1 := touch now e
      (some { content := decompressContent gunz e1.compressed e1.content,
              userMeta := e1.userMeta, cachedAt := e1.createdAt,
              accessCount := e1.accessCount },
       { s with cache := setEntry s.cache k e1
                accessOrder := updateAccessOrder s.accessOrder k
                stats := { s.stats with hitCount := s.stats.hitCount + 1 } })

/-- `ContextCache.delete` (cache_manager.py:246-252). -/
def deleteOp (k : String) (s : CacheState α) : Bool × CacheState α :=
  if (lookupEntry s.cache k).isSome then (true, removeEntry s k) else (false, s)

/-- `ContextCache.clear` (cache_manager.py:254-268), in-memory part. -/
def clearOp (_s : CacheState α) : CacheState α := emptyCacheState α

/-- `ContextCache.cleanup_expired` (cache_manager.py:284-303): collect the
expired keys, then remove them one by one, returning the removal count. -/
def cleanupExpiredOp (cfg : CacheConfig) (now : ℤ) (s : CacheState α) :
    Nat × CacheState α :=
  let expiredKeys := (s.cache.filter (fun p => isExpired cfg now p.2)).map (·.1)
  (expiredKeys.length, expiredKeys.foldl (fun st k => removeEntry st k) s)

/-- Values of the `optimization_params` dict handed to
`generate_cache_key` (strings and integers). -/
inductive ParamValue where
  | s (v : String)
  | i (v : ℤ)
deriving DecidableEq

/-- JSON rendering of a parameter value (string escaping elided: the
repository's parameter values are plain identifiers). -/
def serializeParamValue : ParamValue → String
  | .s v => "\x22" ++ v ++ "\x22"
  | .i v => toString v

/-- Python `json.dumps(params, sort_keys=True, separators=(',', ':'))`
(cache_manager.py:527): keys sorted, compact separators. -/
def serializeParams (ps : List (String × ParamValue)) : String :=
  let sorted := ps.insertionSort (fun a b => a.1 ≤ b.1)
  "\x7b" ++ String.intercalate ","
      (sorted.map (fun p => "\x22" ++ p.1 ++ "\x22:" ++ serializeParamValue p.2))
    ++ "\x7d"

/-- `ContextCache.generate_cache_key` (cache_manager.py:512-534); `h`
abstracts `hashlib.sha256(· .encode('utf-8')).hexdigest()`, and the final
`cache_key[:32]` slice keeps the first 32 characters. -/
def generateCacheKey (h : String → String) (content : PyStr)
    (ps : List (String × ParamValue)) : String :=
  let contentHash := h (String.mk content)
  let paramsHash := h (serializeParams ps)
  String.mk ((h (contentHash ++ ":" ++ paramsHash)).data.take 32)

/-! ## Pruning results, validation gates and the orchestrator
(`pruning/base.py`, `pruning/code_pruner.py`, `pruning/generic_pruner.py`,
`pruning/strategies.py`) -/

/-- Dataclass `PruningResult` (base.py:9-21). -/
structure PruningResult where
  originalContent : PyStr
  prunedContent : PyStr
  originalSize : Nat
  prunedSize : Nat
  reductionBytes : ℤ
  reductionPercentage : ℚ
  operationsApplied : List PyStr
  qualityScore : ℚ
  warnings : List PyStr
deriving DecidableEq

/-- `PruningResult.create` (base.py:23-42). -/
def PruningResult.create (original pruned : PyStr) (operations : List PyStr)
    (qualityScore : ℚ) (warnings : List PyStr) : PruningResult :=
  let os := utf8Len original
  let ps := utf8Len pruned
  { originalContent := original
    prunedContent := pruned
    originalSize := os
    prunedSize := ps
    reductionBytes := (os : ℤ) - (ps : ℤ)
    reductionPercentage := if 0 < os then (((os : ℚ) - (ps : ℚ)) / (os : ℚ)) * 100 else 0
    operationsApplied := operations
    qualityScore := qualityScore
    warnings := warnings }

/-- Warning message appended by `PruningStrategy.validate_pruned_content`
when the pruned text is blank (base.py:96). -/
def warnEmptyPruned : PyStr := "Pruned content is empty".toList

/-- Warning message for more than 90 percent reduction (base.py:102). -/
def warnExcessive90 : PyStr :=
  "Excessive reduction (>90%) may have removed critical content".toList

/-- Warning message for more than 80 percent reduction
(generic_pruner.py:338). -/
def warnExcessive80 : PyStr :=
  "Excessive reduction (>80%) - may have removed critical content".toList

/-- Warning message for structure loss (generic_pruner.py:345). -/
def warnStructureLoss : PyStr :=
  "Significant structure loss - too many lines removed".toList

/-- Warning message for significant function loss (code_pruner.py:561);
the interpolated set of missing names is elided. -/
def warnFunctionLoss : PyStr := "Significant function loss detected".toList

/-- Warning message for a syntax error in the pruned code
(code_pruner.py:568); the interpolated exception text is elided. -/
def warnSyntaxError : PyStr := "Syntax error in pruned code".toList

/-- `PruningStrategy.validate_pruned_content` (base.py:85-104): reject only
blank output; an excessive (more than 90 percent) character reduction is
merely warned about.  `len` on a Python `str` counts characters. -/
def baseValidate (original pruned : PyStr) : Bool × List PyStr :=
  if isBlank pruned then (false, [warnEmptyPruned])
  else
    let reduction : ℚ :=
      if 0 < original.length then 1 - (pruned.length : ℚ) / (original.length : ℚ) else 0
    if reduction > 9/10 then (true, [warnExcessive90]) else (true, [])

/-- Characters matched by the regex class `\w` (ASCII). -/
def isWordChar (c : Char) : Bool := c.isAlphanum || c = '_'

/-- Python substring test `pat in s`. -/
def substrOf (pat s : PyStr) : Bool := decide (pat <:+: s)

/-- Attempt to match the regex `def\s+(\w+)` at the start of `s`; on success
return the captured name and the total number of characters consumed.
Greedy `\s+` needs no backtracking here: shortening the whitespace run can
only expose another whitespace character where `\w` is required. -/
def matchDefAt (s : PyStr) : Option (PyStr × Nat) :=
  match s with
  | c1 :: c2 :: c3 :: rest =>
    if c1 = 'd' ∧ c2 = 'e' ∧ c3 = 'f' then
      let ws := rest.takeWhile pyIsSpace
      if ws.isEmpty then none
      else
        let afterWs := rest.drop ws.length
        let name := afterWs.takeWhile isWordChar
        if name.isEmpty then none else some (name, 3 + ws.length + name.length)
    else none
  | _ => none

theorem matchDefAt_consumed_pos {s : PyStr} {n : PyStr} {k : Nat}
    (h : matchDefAt s = some (n, k)) : 0 < k := by
  rcases s with - | ⟨c1, s⟩
  · simp [matchDefAt] at h
  rcases s with - | ⟨c2, s⟩
  · simp [matchDefAt] at h
  rcases s with - | ⟨c3, rest⟩
  · simp [matchDefAt] at h
  simp only [matchDefAt] at h
  split_ifs at h
  all_goals simp only [Option.some.injEq, Prod.mk.injEq] at h
  obtain ⟨-, hk⟩ := h
  omega

/-- Python `re.findall(r'def\s+(\w+)', s)`: scan left to right, emitting
each captured group and resuming after the end of the full match. -/
def findDefs (s : PyStr) : List PyStr :=
  match s with
  | [] => []
  | c :: rest =>
    match hm : matchDefAt (c :: rest) with
    | some p => p.1 :: findDefs ((c :: rest).drop p.2)
    | none => findDefs rest
termination_by s.length
decreasing_by
  · have := matchDefAt_consumed_pos hm
    simp only [List.length_drop, List.length_cons]
    omega
  · simp only [List.length_cons]
    omega

/-- Python `'def ' in original` (code_pruner.py:564). -/
def hasDefSpace (s : PyStr) : Bool := substrOf "def ".toList s

/-- `CodePruner.validate_pruned_content` (code_pruner.py:547-571): first the
base gate; losing more than 10 percent of the defined function names only
adds a warning; only a re-parse failure (`parses`, abstracting `ast.parse`)
when the original contains `'def '` rejects. -/
def codeValidate (parses : PyStr → Bool) (original pruned : PyStr) :
    Bool × List PyStr :=
  let base := baseValidate original pruned
  if !base.1 then (false, base.2)
  else
    let origFns := (findDefs original).dedup
    let prunedFns := (findDefs pruned).dedup
    let missing := origFns.filter (fun n => !(prunedFns.contains n))
    let w1 :=
      if !missing.isEmpty && decide ((missing.length : ℚ) > (origFns.length : ℚ) * (1/10))
      then base.2 ++ [warnFunctionLoss] else base.2
    if hasDefSpace original && !(parses pruned) then (false, w1 ++ [warnSyntaxError])
    else (true, w1)

/-- `GenericPruner.validate_pruned_content` (generic_pruner.py:327-347):
first the base gate; more than 80 percent character reduction and heavy
line loss only add warnings, never reject. -/
def genericValidate (original pruned : PyStr) : Bool × List PyStr :=
  let base := baseValidate original pruned
  if !base.1 then (false, base.2)
  else
    let reduction : ℚ :=
      if 0 < original.length then 1 - (pruned.length : ℚ) / (original.length : ℚ) else 0
    let w1 := if reduction > 4/5 then base.2 ++ [warnExcessive80] else base.2
    let origLines := (pySplitlines original).length
    let prunedLines := (pySplitlines pruned).length
    let w2 :=
      if 10 < origLines && decide ((prunedLines : ℚ) < (origLines : ℚ) * (3/10))
      then w1 ++ [warnStructureLoss] else w1
    (true, w2)

/-- A pruning strategy as the orchestrator sees it: the `can_prune`
predicate and the `prune` method, which may raise (`Except` with the
exception's message). -/
structure Strategy where
  canPrune : PyStr → String → Bool
  prune : PyStr → ℚ → Except PyStr PruningResult

/-- Operation tags whose presence (as a substring) counts as a safe
operation in `_score_pruning_result` (strategies.py:176). -/
def safeOpTags : List PyStr :=
  ["compressed_whitespace".toList, "removed_empty_lines".toList,
   "removed_debug_statements".toList]

/-- Operation tags whose presence counts as aggressive
(strategies.py:182). -/
def aggressiveOpTags : List PyStr :=
  ["aggressive".toList, "removed_all".toList, "truncated".toList]

/-- `PruningStrategies._score_pruning_result` (strategies.py:154-187),
including the final `max(0, score)` clamp. -/
def scorePruningResult (result : PruningResult) (target : ℚ) : ℚ :=
  let base := result.qualityScore * 100
  let achieved := result.reductionPercentage / 100
  let s1 := if achieved ≥ target then base + 20 else base - (target - achieved) * 50
  let s2 := s1 - (result.warnings.length : ℚ) * 5
  let safeCount := result.operationsApplied.countP
    (fun op => safeOpTags.any (fun tag => substrOf tag op))
  let s3 := s2 + (safeCount : ℚ) * 2
  let aggressiveCount := result.operationsApplied.countP
    (fun op => aggressiveOpTags.any (fun tag => substrOf tag op))
  max 0 (s3 - (aggressiveCount : ℚ) * 5)

/-- Scoring formula exactly as the specification words it (claim C8):
`quality*100 + (20 if achieved ≥ target else −50*shortfall) − 5*warnings
+ 2*safeOps − 5*aggressiveOps`, with no clamping.  Stated from the spec, to
be compared against `scorePruningResult` from the source. -/
def specScore (result : PruningResult) (target : ℚ) : ℚ :=
  let achieved := result.reductionPercentage / 100
  result.qualityScore * 100 +
      (if achieved ≥ target then 20 else -(50 * (target - achieved))) -
      (result.warnings.length : ℚ) * 5 +
      (result.operationsApplied.countP
        (fun op => safeOpTags.any (fun tag => substrOf tag op)) : ℚ) * 2 -
      (result.operationsApplied.countP
        (fun op => aggressiveOpTags.any (fun tag => substrOf tag op)) : ℚ) * 5

/-- Strategy loop of `PruningStrategies.prune_content` (strategies.py:63-81):
try every applicable strategy, swallow per-strategy exceptions, keep the
result whose clamped score strictly exceeds the best so far (initially
`-1`). -/
def pruneLoop (strats : List Strategy) (content : PyStr) (contentType : String)
    (target : ℚ) : Option PruningResult × ℚ :=
  strats.foldl
    (fun acc st =>
      if st.canPrune content contentType then
        match st.prune content target with
        | .ok result =>
          let score := scorePruningResult result target
          if score > acc.2 then (some result, score) else acc
        | .error _ => acc
      else acc)
    (none, -1)

/-- The `strategy_preferences` dispatch table (strategies.py:35-42). -/
def strategyPrefs (codeP docP genP : Strategy) : List (String × List Strategy) :=
  [("code", [codeP, genP]), ("documentation", [docP, genP]),
   ("config", [genP]), ("data", [genP]), ("markup", [docP, genP]),
   ("unknown", [genP])]

/-- Operation tag of the fail-open result (strategies.py:96). -/
def failOpenTag : PyStr := "pruning_completely_failed".toList

/-- The fail-open result built at strategies.py:93-99 when even the generic
fallback raises (`e` is the exception's message). -/
def failOpenResult (content : PyStr) (e : PyStr) : PruningResult :=
  PruningResult.create content content [failOpenTag] 1
    ["All pruning attempts failed: ".toList ++ e]

/-- ASCII lowercase conversion of one character (`str.lower`). -/
def lowerChar (c : Char) : Char :=
  if 'A' ≤ c ∧ c ≤ 'Z' then Char.ofNat (c.toNat + 32) else c

/-- Python `content_type.lower()` for ASCII content-type names. -/
def pyLower (s : String) : String := String.mk (s.data.map lowerChar)

/-- Lookup `self.strategy_preferences.get(content_type.lower(),
[self.generic_pruner])` (strategies.py:59-61). -/
def availableStrategies (codeP docP genP : Strategy) (contentType : String) :
    List Strategy :=
  (((strategyPrefs codeP docP genP).find? (fun p => p.1 == pyLower contentType)).map
    (·.2)).getD [genP]

/-- `PruningStrategies.prune_content` (strategies.py:44-99): look up the
preference list for the (lowercased) content type, run the scored strategy
loop, fall back to the generic pruner with the target capped at `0.1`, and
fail open if that also raises. -/
def pruneContent (codeP docP genP : Strategy) (content : PyStr)
    (contentType : String) (target : ℚ) : PruningResult :=
  match (pruneLoop (availableStrategies codeP docP genP contentType) content
      contentType target).1 with
  | some r => r
  | none =>
    match genP.prune content (min target (1/10)) with
    | .ok r => r
    | .error e => failOpenResult content e

/-- Results produced by the applicable, non-raising strategies, in
preference order. -/
def applicableResults (strats : List Strategy) (content : PyStr)
    (contentType : String) (target : ℚ) : List PruningResult :=
  strats.filterMap
    (fun st => if st.canPrune content contentType
               then (st.prune content target).toOption else none)

/-- Concrete pruning result (quality 0, two warnings, no reduction) used to
exhibit the effect of the `max(0, score)` clamp on strategy selection. -/
def cexResultA : PruningResult :=
  { originalContent := "x".toList, prunedContent := "x".toList,
    originalSize := 1, prunedSize := 1, reductionBytes := 0,
    reductionPercentage := 0, operationsApplied := [],
    qualityScore := 0, warnings := ["w1".toList, "w2".toList] }

/-- Concrete pruning result like `cexResultA` but with a single warning,
hence a strictly better raw score. -/
def cexResultB : PruningResult :=
  { originalContent := "x".toList, prunedContent := "y".toList,
    originalSize := 1, prunedSize := 1, reductionBytes := 0,
    reductionPercentage := 0, operationsApplied := [],
    qualityScore := 0, warnings := ["w1".toList] }

/-- Strategy that always applies and returns `cexResultA`. -/
def cexStratA : Strategy :=
  { canPrune := fun _ _ => true, prune := fun _ _ => .ok cexResultA }

/-- Strategy that always applies and returns `cexResultB`. -/
def cexStratB : Strategy :=
  { canPrune := fun _ _ => true, prune := fun _ _ => .ok cexResultB }

/-- Strategy that always applies and always raises (message `e1`). -/
def errStratA : Strategy :=
  { canPrune := fun _ _ => true, prune := fun _ _ => .error "e1".toList }

/-- Strategy that always applies and always raises (message `e2`). -/
def errStratB : Strategy :=
  { canPrune := fun _ _ => true, prune := fun _ _ => .error "e2".toList }

/-! ## Optimization engine (`optimizer.py`, class `ContextOptimizer`)

Only the cache-facing control flow of `optimize_context` is embedded.  The
deterministic collaborators (content analysis, token counting, pruning and
smart truncation — all pure functions of their text arguments) appear as
function-valued fields of `OptDeps`; wall-clock bookkeeping
(`processing_time_ms`, `self.metrics`) and the opaque
`prioritization_result` are omitted. -/

/-- The metadata dict cached alongside an optimized payload
(optimizer.py:236-244), without the opaque `prioritization_result`. -/
structure OptMeta where
  originalTokens : Nat
  optimizedTokens : Nat
  reductionPercentage : ℚ
  operations : List PyStr
  qualityScore : ℚ
  warnings : List PyStr
deriving DecidableEq

/-- Dataclass `OptimizationResult` (optimizer.py:27-51), without the
wall-clock `processing_time_ms` and the opaque `prioritization_result`. -/
structure OptimizationResult where
  originalContent : PyStr
  optimizedContent : PyStr
  originalTokens : Nat
  optimizedTokens : Nat
  reductionPercentage : ℚ
  operationsApplied : List PyStr
  qualityScore : ℚ
  cacheUsed : Bool
  warnings : List PyStr
deriving DecidableEq

/-- Deterministic collaborators of `ContextOptimizer.optimize_context`:
`h` abstracts `hashlib.sha256(...).hexdigest()`, `gz`/`gunz` abstract gzip,
`analyzeType` the content analyzer's content type, `countTokens` the token
counter, `pruneFn` `PruningStrategies.prune_content`, `truncFn`
`PruningStrategies.smart_truncate` (returning the text and the extra
operation tags), and `strategyName` is `self.config.strategy`. -/
structure OptDeps where
  h : String → String
  gz : PyStr → List Nat
  gunz : List Nat → PyStr
  analyzeType : PyStr → String
  countTokens : PyStr → String → Nat
  pruneFn : PyStr → String → ℚ → PruningResult
  truncFn : PyStr → ℤ → String → String → PyStr × List PyStr
  strategyName : String

/-- Operation tag of the unneeded-optimization early return
(optimizer.py:173). -/
def noOptTag : PyStr := "no_optimization_needed".toList

/-- Concrete optimizer collaborators used in the C3 witness and
counterexample: a constant digest, trivial compression, word-per-character
token counting, and an identity pruning pipeline. -/
def cexDeps : OptDeps :=
  { h := fun _ => "K", gz := fun _ => [], gunz := fun _ => ['a', 'a', 'a', 'a'],
    analyzeType := fun _ => "code", countTokens := fun s _ => s.length,
    pruneFn := fun c _ _ => PruningResult.create c c [] 1 [],
    truncFn := fun c _ _ _ => (c, []), strategyName := "balanced" }

/-- `ContextOptimizer.optimize_context` (optimizer.py:97-253): build the
fingerprint from content plus parameters, try the cache (a hit returns the
cached payload with `cache_used=True`), return early when the token count
already fits the target (not cached), otherwise prune, smart-truncate if
still over target, cache the outcome and return it. -/
def optimizeContext (cfg : CacheConfig) (d : OptDeps) (now : ℤ) (content : PyStr)
    (agentType taskDescription : String) (targetTokens : ℤ)
    (s : CacheState OptMeta) : OptimizationResult × CacheState OptMeta :=
  let params : List (String × ParamValue) :=
    [("agent_type", .s agentType), ("task_description", .s taskDescription),
     ("target_tokens", .i targetTokens), ("strategy", .s d.strategyName)]
  let key := generateCacheKey d.h content params
  let g := getOp cfg d.gunz now key s
  match g.1 with
  | some hit =>
    ({ originalContent := content
       optimizedContent := hit.content
       originalTokens := hit.userMeta.originalTokens
       optimizedTokens := hit.userMeta.optimizedTokens
       reductionPercentage := hit.userMeta.reductionPercentage
       operationsApplied := hit.userMeta.operations
       qualityScore := hit.userMeta.qualityScore
       cacheUsed := true
       warnings := hit.userMeta.warnings }, g.2)
  | none =>
    let ctype := d.analyzeType content
    let originalTokens := d.countTokens content ctype
    if (originalTokens : ℤ) ≤ targetTokens then
      ({ originalContent := content
         optimizedContent := content
         originalTokens := originalTokens
         optimizedTokens := originalTokens
         reductionPercentage := 0
         operationsApplied := [noOptTag]
         qualityScore := 1
         cacheUsed := false
         warnings := [] }, g.2)
    else
      let pr := d.pruneFn content ctype (1 - (targetTokens : ℚ) / (originalTokens : ℚ))
      let t0 := d.countTokens pr.prunedContent ctype
      let afterTrunc :=
        if (t0 : ℤ) > targetTokens then
          let tr := d.truncFn pr.prunedContent targetTokens agentType taskDescription
          (tr.1, pr.operationsApplied ++ tr.2)
        else (pr.prunedContent, pr.operationsApplied)
      let optimizedTokens := d.countTokens afterTrunc.1 ctype
      let reductionPercentage : ℚ :=
        if 0 < originalTokens then
          (((originalTokens : ℚ) - (optimizedTokens : ℚ)) / (originalTokens : ℚ)) * 100
        else 0
      let meta : OptMeta :=
        { originalTokens := originalTokens
          optimizedTokens := optimizedTokens
          reductionPercentage := reductionPercentage
          operations := afterTrunc.2
          qualityScore := pr.qualityScore
          warnings := pr.warnings }
      let st := setOp cfg d.gz now key afterTrunc.1 meta g.2
      ({ originalContent := content
         optimizedContent := afterTrunc.1
         originalTokens := originalTokens
         optimizedTokens := optimizedTokens
         reductionPercentage := reductionPercentage
         operationsApplied := afterTrunc.2
         qualityScore := pr.qualityScore
         cacheUsed := false
         warnings := pr.warnings }, st.2)

/-! ## Derived predicates and specification-side definitions used by the
claims -/

/-- The input's final line (if any) is not blank.  Inputs ending in a blank
line lose it to the `splitlines`/`join` round trip on a second safe pass. -/
def noTrailingBlank (s : PyStr) : Bool :=
  match (pySplitlines s).getLast? with
  | none => true
  | some l => !(isBlank l)

/-- Every line is indented by fewer than 4 characters; from column 4 on,
`GenericPruner._compress_whitespace` rewrites the indentation to
`2*min(width/4, 8)` spaces, which is not a fixed point. -/
def indentsBelow4 (s : PyStr) : Bool :=
  (pySplitlines s).all (fun l => leadingWs l < 4)

/-- The list starts with a non-blank line (or is empty). -/
def headNonBlank : List PyStr → Bool
  | [] => true
  | l :: _ => !(isBlank l)

/-- Every maximal run of blank lines has length at most `b`, assuming `n`
blank lines immediately precede the list. -/
def runsLe (b : Nat) : Nat → List PyStr → Bool
  | _, [] => true
  | n, l :: t =>
    if isBlank l then decide (n + 1 ≤ b) && runsLe b (n + 1) t
    else runsLe b 0 t

/-- Number of least-recently-used removals needed (walking the access order
from its least-recently-used front) before the remaining entries total at
most `target` bytes. -/
def lruEvictionsNeeded (target : ℤ) :
    List String → List (String × CacheEntry α) → Nat
  | [], _ => 0
  | k :: rest, c =>
    if (totalSizeOf c : ℤ) ≤ target then 0
    else 1 + lruEvictionsNeeded target rest (eraseKey c k)

/-- Structural invariant tying `_access_order` to `_cache`: no duplicate
keys in the order list, and the order list holds exactly the cache's keys
(claim C10). -/
def CacheInv (s : CacheState α) : Prop :=
  s.accessOrder.Nodup ∧ List.Perm (s.cache.map Prod.fst) s.accessOrder

/-- Last-access stamp the cache records for key `k` (`0` if absent; under
`CacheInv` every key of the access order is present in the cache). -/
def accessTimeOf (c : List (String × CacheEntry α)) (k : String) : ℤ :=
  match lookupEntry c k with
  | some e => e.accessedAt
  | none => 0

/-- The recency content of `_access_order`: keys are listed from least
recently to most recently used, i.e. positions are sorted by the entries'
`accessed_at` stamps (which `get` and `set` refresh in the same statement
that moves the key to the end of the order, cache_manager.py:151-153,
221-223). -/
def LruOrdered (s : CacheState α) : Prop :=
  s.accessOrder.Pairwise
    (fun k1 k2 => accessTimeOf s.cache k1 ≤ accessTimeOf s.cache k2)

/-- The wall clock does not run backwards: the `time.time()` value `now` of
the current call is at least every recorded `accessed_at`. -/
def ClockAhead (now : ℤ) (s : CacheState α) : Prop :=
  ∀ p ∈ s.cache, p.2.accessedAt ≤ now

/-- Stored size that `set` will record for a payload: the post-compression
byte count. -/
def setStoredSize (cfg : CacheConfig) (gz : PyStr → List Nat)
    (content : PyStr) : Nat :=
  storedSizeBytes (compressContent cfg gz content).1

/-- Fold a sequence of `set` calls (each a `(now, key, content, metadata)`
tuple) over a cache state. -/
def applySetOps (cfg : CacheConfig) (gz : PyStr → List Nat)
    (s : CacheState α) (ops : List (ℤ × String × PyStr × α)) : CacheState α :=
  ops.foldl (fun st op => (setOp cfg gz op.1 op.2.1 op.2.2.1 op.2.2.2 st).2) s

/-! ## Association-list bookkeeping lemmas -/

theorem lookupEntry_cons (p : String × CacheEntry α)
    (c : List (String × CacheEntry α)) (k : String) :
    lookupEntry (p :: c) k = if p.1 = k then some p.2 else lookupEntry c k := by
  by_cases h : p.1 = k
  · simp [lookupEntry, List.find?_cons, h]
  · have hb : (p.1 == k) = false := beq_eq_false_iff_ne.mpr h
    simp [lookupEntry, List.find?_cons, hb, h]

theorem eraseKey_cons (p : String × CacheEntry α)
    (c : List (String × CacheEntry α)) (k : String) :
    eraseKey (p :: c) k =
      if p.1 = k then eraseKey c k else p :: eraseKey c k := by
  by_cases h : p.1 = k
  · simp [eraseKey, List.filter_cons, h]
  · simp [eraseKey, List.filter_cons, h, bne_iff_ne]

theorem lookupEntry_eraseKey_self (c : List (String × CacheEntry α)) (k : String) :
    lookupEntry (eraseKey c k) k = none := by
  induction c with
  | nil => rfl
  | cons p c ih =>
    rw [eraseKey_cons]
    by_cases h : p.1 = k
    · simpa [h] using ih
    · rw [if_neg h, lookupEntry_cons, if_neg h]
      exact ih

theorem lookupEntry_eraseKey_ne (c : List (String × CacheEntry α)) {k k' : String}
    (h : k' ≠ k) : lookupEntry (eraseKey c k) k' = lookupEntry c k' := by
  induction c with
  | nil => rfl
  | cons p c ih =>
    rw [eraseKey_cons]
    by_cases hp : p.1 = k
    · rw [if_pos hp, lookupEntry_cons, if_neg (by rw [hp]; exact fun hk => h hk.symm)]
      exact ih
    · rw [if_neg hp, lookupEntry_cons, lookupEntry_cons]
      by_cases hp' : p.1 = k'
      · rw [if_pos hp', if_pos hp']
      · rw [if_neg hp', if_neg hp']
        exact ih

theorem lookupEntry_append_right_of_none (l l' : List (String × CacheEntry α))
    (k : String) (h : lookupEntry l k = none) :
    lookupEntry (l ++ l') k = lookupEntry l' k := by
  induction l with
  | nil => rfl
  | cons p l ih =>
    rw [lookupEntry_cons] at h
    by_cases hp : p.1 = k
    · rw [if_pos hp] at h
      exact absurd h (by simp)
    · rw [if_neg hp] at h
      rw [List.cons_append, lookupEntry_cons, if_neg hp]
      exact ih h

theorem lookupEntry_setEntry_self (c : List (String × CacheEntry α)) (k : String)
    (e : CacheEntry α) : lookupEntry (setEntry c k e) k = some e := by
  rw [setEntry,
    lookupEntry_append_right_of_none _ _ _ (lookupEntry_eraseKey_self c k),
    lookupEntry_cons, if_pos rfl]

theorem lookupEntry_setEntry_ne (c : List (String × CacheEntry α)) {k k' : String}
    (e : CacheEntry α) (h : k' ≠ k) :
    lookupEntry (setEntry c k e) k' = lookupEntry c k' := by
  have step : lookupEntry (eraseKey c k ++ [(k, e)]) k' =
      lookupEntry (eraseKey c k) k' := by
    induction eraseKey c k with
    | nil => simp [lookupEntry, List.find?_cons, beq_eq_false_iff_ne.mpr h.symm]
    | cons p c' ih =>
      rw [List.cons_append, lookupEntry_cons, lookupEntry_cons]
      by_cases hp : p.1 = k'
      · rw [if_pos hp, if_pos hp]
      · rw [if_neg hp, if_neg hp]
        exact ih
  rw [setEntry, step, lookupEntry_eraseKey_ne c h]

theorem totalSizeOf_cons (p : String × CacheEntry α)
    (c : List (String × CacheEntry α)) :
    totalSizeOf (p :: c) = p.2.sizeBytes + totalSizeOf c := by
  simp [totalSizeOf]

theorem totalSizeOf_append (a b : List (String × CacheEntry α)) :
    totalSizeOf (a ++ b) = totalSizeOf a + totalSizeOf b := by
  simp [totalSizeOf]

theorem totalSizeOf_eraseKey_le (c : List (String × CacheEntry α)) (k : String) :
    totalSizeOf (eraseKey c k) ≤ totalSizeOf c := by
  induction c with
  | nil => simp [eraseKey, totalSizeOf]
  | cons p c ih =>
    rw [eraseKey_cons]
    by_cases h : p.1 = k
    · rw [if_pos h, totalSizeOf_cons]
      omega
    · rw [if_neg h, totalSizeOf_cons, totalSizeOf_cons]
      omega

theorem totalSizeOf_setEntry (c : List (String × CacheEntry α)) (k : String)
    (e : CacheEntry α) :
    totalSizeOf (setEntry c k e) = totalSizeOf (eraseKey c k) + e.sizeBytes := by
  simp [setEntry, totalSizeOf]

/-! ## Claim C6: `set` rejects empty payloads and gates compression -/

/-- Claim C6.  `CacheStore.set` returns `False` and stores nothing for an
empty payload; for a non-empty payload the entry stored under the key holds
the gzip bytes exactly when compression is enabled, the UTF-8 payload is at
least 1024 bytes and the compression ratio is below `0.8` (and then records
that ratio), and otherwise holds the payload uncompressed with ratio `1.0`. -/
theorem cacheSet_compressionPolicy (cfg : CacheConfig) (gz : PyStr → List Nat)
    (now : ℤ) (k : String) (meta : α) (s : CacheState α) (content : PyStr)
    (hne : content ≠ []) :
    setOp cfg gz now k [] meta s = (false, s) ∧
    (setOp cfg gz now k content meta s).1 = true ∧
    ∃ e : CacheEntry α,
      lookupEntry (setOp cfg gz now k content meta s).2.cache k = some e ∧
      ((cfg.compressionEnabled = true ∧ 1024 ≤ utf8Len content ∧
          ((gz content).length : ℚ) / (utf8Len content : ℚ) < 4/5) →
        e.content = .comp (gz content) ∧
        e.compressionRatio = ((gz content).length : ℚ) / (utf8Len content : ℚ)) ∧
      (¬(cfg.compressionEnabled = true ∧ 1024 ≤ utf8Len content ∧
          ((gz content).length : ℚ) / (utf8Len content : ℚ) < 4/5) →
        e.content = .raw content ∧ e.compressionRatio = 1) := by
  have hE : content.isEmpty = false := by
    cases content
    · exact absurd rfl hne
    · rfl
  refine ⟨rfl, ?_, ?_⟩
  · simp [setOp, hE]
  · simp only [setOp, hE, Bool.false_eq_true, if_false]
    refine ⟨_, lookupEntry_setEntry_self _ _ _, ?_, ?_⟩
    · rintro ⟨h1, h2, h3⟩
      have h2' : ¬(utf8Len content < 1024) := by omega
      simp [compressContent, h1, h2', h3]
    · intro hn
      by_cases h1 : cfg.compressionEnabled = true
      · by_cases h2 : utf8Len content < 1024
        · simp [compressContent, h1, h2]
        · have h3 : ¬(((gz content).length : ℚ) / (utf8Len content : ℚ) < 4/5) := by
            intro hc
            exact hn ⟨h1, by omega, hc⟩
          simp [compressContent, h1, h2, h3]
      · have h1' : cfg.compressionEnabled = false := by
          cases hcfg : cfg.compressionEnabled
          · rfl
          · exact absurd hcfg h1
        simp [compressContent, h1']

/-- Witness for C6 at a concrete input. -/
theorem cacheSet_compressionPolicy_witness :
    setOp { maxSizeBytes := 100, ttlSeconds := 10, compressionEnabled := true }
        (fun _ => []) 0 "k" [] () (emptyCacheState Unit) =
      (false, emptyCacheState Unit) :=
  (cacheSet_compressionPolicy
    { maxSizeBytes := 100, ttlSeconds := 10, compressionEnabled := true }
    (fun _ => []) 0 "k" () (emptyCacheState Unit) "x".toList (by decide)).1

/-! ## Claim C5: expired entries are invisible to `get` and swept by
`cleanup_expired` -/

theorem foldl_removeEntry_cache (ks : List String) (s : CacheState α) :
    (ks.foldl (fun st k => removeEntry st k) s).cache =
      s.cache.filter (fun p => !(decide (p.1 ∈ ks))) := by
  induction ks generalizing s with
  | nil => simp
  | cons k ks ih =>
    rw [List.foldl_cons, ih]
    show (eraseKey s.cache k).filter _ = _
    rw [eraseKey, List.filter_filter]
    apply List.filter_congr
    intro p _
    by_cases h : p.1 = k
    · simp [h]
    · simp [h, bne_iff_ne, List.mem_cons]

/-- Claim C5.  A stored entry whose age strictly exceeds `ttl_seconds`
(including `ttl_seconds = 0`) is never returned by `get`: the lookup returns
`None`, removes the entry, and bumps the miss counter but not the hit
counter.  `cleanup_expired` leaves exactly the unexpired entries and returns
the number of removed ones. -/
theorem cacheExpiry_get_cleanup (cfg : CacheConfig) (gunz : List Nat → PyStr)
    (now : ℤ) (k : String) (s : CacheState α) (e : CacheEntry α)
    (he : lookupEntry s.cache k = some e)
    (hexp : now - e.createdAt > cfg.ttlSeconds)
    (hnd : (s.cache.map Prod.fst).Nodup) :
    (getOp cfg gunz now k s).1 = none ∧
    lookupEntry ((getOp cfg gunz now k s).2).cache k = none ∧
    (getOp cfg gunz now k s).2.stats.missCount = s.stats.missCount + 1 ∧
    (getOp cfg gunz now k s).2.stats.hitCount = s.stats.hitCount ∧
    (cleanupExpiredOp cfg now s).2.cache =
      s.cache.filter (fun p => !(isExpired cfg now p.2)) ∧
    (cleanupExpiredOp cfg now s).1 =
      (s.cache.filter (fun p => isExpired cfg now p.2)).length := by
  have hexp' : isExpired cfg now e = true := by
    simp only [isExpired, decide_eq_true_eq]
    exact hexp
  refine ⟨?_, ?_, ?_, ?_, ?_, ?_⟩
  · simp [getOp, he, hexp']
  · simp only [getOp, he, hexp', if_true]
    exact lookupEntry_eraseKey_self s.cache k
  · simp [getOp, he, hexp', removeEntry]
  · simp [getOp, he, hexp', removeEntry]
  · rw [cleanupExpiredOp, foldl_removeEntry_cache]
    apply List.filter_congr
    intro p hp
    congr 1
    rw [Bool.eq_iff_iff]
    simp only [decide_eq_true_eq, List.mem_map, List.mem_filter]
    constructor
    · rintro ⟨q, ⟨hq, hqexp⟩, hqk⟩
      have : q = p := List.inj_on_of_nodup_map hnd hq hp hqk
      rw [← this]
      exact hqexp
    · intro hpe
      exact ⟨p, ⟨hp, hpe⟩, rfl⟩
  · simp [cleanupExpiredOp]

/-- Witness for C5 at a concrete expired entry (`ttl_seconds = 0`). -/
theorem cacheExpiry_get_cleanup_witness :
    (getOp { maxSizeBytes := 100, ttlSeconds := 0, compressionEnabled := false }
        (fun _ => []) 1 "k"
        { cache := [("k",
            { key := "k", content := .raw ['a'], userMeta := (),
              originalSize := 1, compressed := false, compressionRatio := 1,
              createdAt := 0, accessedAt := 0, accessCount := 1,
              sizeBytes := 1 })],
          accessOrder := ["k"], stats := CacheStats.empty }).1 = (none : Option (CacheHit Unit)) :=
  (cacheExpiry_get_cleanup
    { maxSizeBytes := 100, ttlSeconds := 0, compressionEnabled := false }
    (fun _ => []) 1 "k"
    { cache := [("k",
        { key := "k", content := .raw ['a'], userMeta := (),
          originalSize := 1, compressed := false, compressionRatio := 1,
          createdAt := 0, accessedAt := 0, accessCount := 1,
          sizeBytes := 1 })],
      accessOrder := ["k"], stats := CacheStats.empty }
    { key := "k", content := .raw ['a'], userMeta := (),
      originalSize := 1, compressed := false, compressionRatio := 1,
      createdAt := 0, accessedAt := 0, accessCount := 1, sizeBytes := 1 }
    (by decide) (by decide) (by decide)).1

/-! ## Claim C2: what the validation gates actually reject -/

/-- Counterexample to C2 as stated: a generic pruned result whose byte
reduction (96.7 percent) far exceeds the 80 percent threshold is still
accepted by `GenericPruner.validate_pruned_content` (the threshold only
produces a warning). -/
theorem validationGate_counterexample :
    (genericValidate (List.replicate 30 'a') ['a']).1 = true ∧
    ((utf8Len (List.replicate 30 'a') : ℚ) - (utf8Len ['a'] : ℚ)) /
        (utf8Len (List.replicate 30 'a') : ℚ) > 4/5 := by
  have h1 : isBlank ['a'] = false := by decide
  have hbase1 : (baseValidate (List.replicate 30 'a') ['a']).1 = true := by
    rw [baseValidate]
    simp only [h1, Bool.false_eq_true, if_false]
    split_ifs <;> rfl
  constructor
  · rw [genericValidate]
    simp only [hbase1, Bool.not_true, Bool.false_eq_true, if_false]
  · have hu : utf8Len (List.replicate 30 'a') = 30 := by decide
    have hu2 : utf8Len ['a'] = 1 := by decide
    rw [hu, hu2]
    norm_num

/-- Claim C2, amended.  The gates reject exactly these cases: blank pruned
output (all three gates), and — for code, when the original contains
`'def '` — failure to re-parse.  Excessive reduction (beyond 90 or 80
percent) and loss of more than 10 percent of the defined functions only
append warnings. -/
theorem bool_eq_false_of_ne_true {b : Bool} (h : ¬b = true) : b = false := by
  cases b
  · rfl
  · exact absurd rfl h

theorem validationGate_characterization (parses : PyStr → Bool)
    (original pruned : PyStr) :
    (baseValidate original pruned).1 = !(isBlank pruned) ∧
    (genericValidate original pruned).1 = !(isBlank pruned) ∧
    (codeValidate parses original pruned).1 =
      (!(isBlank pruned) && (!(hasDefSpace original) || parses pruned)) := by
  by_cases hb : isBlank pruned = true
  · have hbase : baseValidate original pruned = (false, [warnEmptyPruned]) := by
      rw [baseValidate]
      simp [hb]
    refine ⟨by simp [hbase, hb], ?_, ?_⟩
    · rw [genericValidate]
      simp [hbase, hb]
    · rw [codeValidate]
      simp [hbase, hb]
  · have hb' : isBlank pruned = false := bool_eq_false_of_ne_true hb
    have hbase : (baseValidate original pruned).1 = true := by
      rw [baseValidate]
      simp only [hb', Bool.false_eq_true, if_false]
      split_ifs <;> rfl
    refine ⟨by simp [hbase, hb'], ?_, ?_⟩
    · rw [genericValidate]
      simp only [hbase, Bool.not_true, Bool.false_eq_true, if_false]
      simp [hb']
    · rw [codeValidate]
      simp only [hbase, Bool.not_true, Bool.false_eq_true, if_false]
      by_cases hd : hasDefSpace original = true
      · by_cases hp : parses pruned = true
        · simp [hd, hp, hb']
        · simp [hd, bool_eq_false_of_ne_true hp, hb']
      · simp [bool_eq_false_of_ne_true hd, hb']

/-! ## Claim C9: cache-key generation is deterministic under parameter
reordering -/

/-- Claim C9.  `generate_cache_key` sorts the parameter map's keys before
serializing, so any two parameter lists that are equal as maps (same
key-value bindings, keys unique, any order — i.e. permutations of one
another) produce the same cache key, for every digest function `h`. -/
theorem cacheKey_deterministic (h : String → String) (content : PyStr)
    (l1 l2 : List (String × ParamValue)) (hperm : List.Perm l1 l2)
    (hnd : (l1.map Prod.fst).Nodup) :
    generateCacheKey h content l1 = generateCacheKey h content l2 := by
  haveI : IsTotal (String × ParamValue) (fun a b => a.1 ≤ b.1) :=
    ⟨fun a b => le_total a.1 b.1⟩
  haveI : IsTrans (String × ParamValue) (fun a b => a.1 ≤ b.1) :=
    ⟨fun _ _ _ h1 h2 => le_trans h1 h2⟩
  haveI : IsAntisymm (String × ParamValue) (fun a b => a.1 < b.1) :=
    ⟨fun _ _ h1 h2 => absurd (lt_trans h1 h2) (lt_irrefl _)⟩
  suffices he : l1.insertionSort (fun a b => a.1 ≤ b.1) =
      l2.insertionSort (fun a b => a.1 ≤ b.1) by
    rw [generateCacheKey, generateCacheKey, serializeParams, serializeParams, he]
  have hs1 := List.sorted_insertionSort (fun a b : String × ParamValue => a.1 ≤ b.1) l1
  have hs2 := List.sorted_insertionSort (fun a b : String × ParamValue => a.1 ≤ b.1) l2
  unfold List.Sorted at hs1 hs2
  have hp1 := List.perm_insertionSort (fun a b : String × ParamValue => a.1 ≤ b.1) l1
  have hp2 := List.perm_insertionSort (fun a b : String × ParamValue => a.1 ≤ b.1) l2
  have hperm' : List.Perm (l1.insertionSort (fun a b => a.1 ≤ b.1))
      (l2.insertionSort (fun a b => a.1 ≤ b.1)) :=
    hp1.trans (hperm.trans hp2.symm)
  have hnd1 : ((l1.insertionSort (fun a b => a.1 ≤ b.1)).map Prod.fst).Nodup :=
    ((hp1.map Prod.fst).nodup_iff).mpr hnd
  have hnd2 : ((l2.insertionSort (fun a b => a.1 ≤ b.1)).map Prod.fst).Nodup :=
    (((hp2.map Prod.fst).trans (hperm.map Prod.fst).symm).nodup_iff).mpr hnd
  have hne1 : List.Pairwise (fun a b : String × ParamValue => a.1 ≠ b.1)
      (l1.insertionSort (fun a b => a.1 ≤ b.1)) := by
    rw [List.Nodup, List.pairwise_map] at hnd1
    exact hnd1
  have hne2 : List.Pairwise (fun a b : String × ParamValue => a.1 ≠ b.1)
      (l2.insertionSort (fun a b => a.1 ≤ b.1)) := by
    rw [List.Nodup, List.pairwise_map] at hnd2
    exact hnd2
  have hlt1 : List.Sorted (fun a b : String × ParamValue => a.1 < b.1)
      (l1.insertionSort (fun a b => a.1 ≤ b.1)) :=
    (hs1.and hne1).imp fun hab => lt_of_le_of_ne hab.1 hab.2
  have hlt2 : List.Sorted (fun a b : String × ParamValue => a.1 < b.1)
      (l2.insertionSort (fun a b => a.1 ≤ b.1)) :=
    (hs2.and hne2).imp fun hab => lt_of_le_of_ne hab.1 hab.2
  exact List.eq_of_perm_of_sorted hperm' hlt1 hlt2

/-- Witness for C9: two insertion orders of the same two-parameter map. -/
theorem cacheKey_deterministic_witness :
    List.Perm [("b", ParamValue.i 1), ("a", ParamValue.s "x")]
      [("a", ParamValue.s "x"), ("b", ParamValue.i 1)] ∧
    generateCacheKey id "c".toList [("b", ParamValue.i 1), ("a", ParamValue.s "x")] =
      generateCacheKey id "c".toList [("a", ParamValue.s "x"), ("b", ParamValue.i 1)] :=
  ⟨by decide,
   cacheKey_deterministic id "c".toList _ _ (by decide) (by decide)⟩

/-! ## Claim C7: fail-open orchestration when every strategy raises -/

theorem pruneLoop_all_error (strats : List Strategy) (content : PyStr)
    (ctype : String) (target : ℚ)
    (h : ∀ st ∈ strats, st.canPrune content ctype = true →
        ∃ e, st.prune content target = .error e) :
    pruneLoop strats content ctype target = (none, -1) := by
  rw [pruneLoop]
  have H : ∀ (acc : Option PruningResult × ℚ),
      (∀ st ∈ strats, st.canPrune content ctype = true →
        ∃ e, st.prune content target = .error e) →
      strats.foldl
        (fun acc st =>
          if st.canPrune content ctype then
            match st.prune content target with
            | .ok result =>
              let score := scorePruningResult result target
              if score > acc.2 then (some result, score) else acc
            | .error _ => acc
          else acc) acc = acc := by
    induction strats with
    | nil => intro acc _; rfl
    | cons st strats ih =>
      intro acc hac
      rw [List.foldl_cons]
      by_cases hc : st.canPrune content ctype = true
      · obtain ⟨e, he⟩ := hac st (List.mem_cons_self st strats) hc
        simp only [hc, if_true, he]
        exact ih (fun s hs hcs => hac s (List.mem_cons_of_mem st hs) hcs) acc
          (fun s hs hcs => hac s (List.mem_cons_of_mem st hs) hcs)
      · simp only [bool_eq_false_of_ne_true hc, Bool.false_eq_true, if_false]
        exact ih (fun s hs hcs => hac s (List.mem_cons_of_mem st hs) hcs) acc
          (fun s hs hcs => hac s (List.mem_cons_of_mem st hs) hcs)
  exact H (none, -1) h

/-- Claim C7.  When every applicable strategy raises (or none applies), the
orchestrator falls back to the generic pruner with the target capped at
`0.1`; when that also raises, it returns the fail-open result: the original
content unchanged, one failure operation tag, quality `1.0`.  (In the
embedding `prune_content` is total, which is the never-raises half of the
claim.) -/
theorem pruneOrchestration_failOpen (codeP docP genP : Strategy)
    (content : PyStr) (contentType : String) (target : ℚ)
    (h : ∀ st ∈ availableStrategies codeP docP genP contentType,
        st.canPrune content contentType = true →
        ∃ e, st.prune content target = .error e) :
    (∀ r, genP.prune content (min target (1/10)) = .ok r →
        pruneContent codeP docP genP content contentType target = r) ∧
    (∀ e, genP.prune content (min target (1/10)) = .error e →
        pruneContent codeP docP genP content contentType target =
          failOpenResult content e) ∧
    (∀ e, (failOpenResult content e).prunedContent = content ∧
        (failOpenResult content e).operationsApplied = [failOpenTag] ∧
        (failOpenResult content e).qualityScore = 1) := by
  have hl := pruneLoop_all_error
    (availableStrategies codeP docP genP contentType) content contentType target h
  refine ⟨?_, ?_, fun e => ⟨rfl, rfl, rfl⟩⟩
  · intro r hr
    rw [pruneContent, hl, hr]
  · intro e he
    rw [pruneContent, hl, he]

/-- Witness for C7: both the code strategy and the generic fallback raise on
a `code` input, so the orchestrator fails open. -/
theorem pruneOrchestration_failOpen_witness :
    pruneContent errStratA cexStratB errStratB "x".toList "code" (1/2) =
      failOpenResult "x".toList "e2".toList := by
  refine (pruneOrchestration_failOpen errStratA cexStratB errStratB
    "x".toList "code" (1/2) ?_).2.1 "e2".toList rfl
  intro st hst _
  have hav : availableStrategies errStratA cexStratB errStratB "code" =
      [errStratA, errStratB] := rfl
  rw [hav] at hst
  rcases List.mem_cons.mp hst with rfl | hst
  · exact ⟨"e1".toList, rfl⟩
  rcases List.mem_cons.mp hst with rfl | hst
  · exact ⟨"e2".toList, rfl⟩
  · exact absurd hst (List.not_mem_nil st)

/-! ## Claim C8: scoring and selection of strategy results -/

theorem scorePruningResult_eq_clamp (x : PruningResult) (t : ℚ) :
    scorePruningResult x t = max 0 (specScore x t) := by
  rw [scorePruningResult, specScore]
  split_ifs with h
  · ring_nf
  · ring_nf

theorem scorePruningResult_nonneg (x : PruningResult) (t : ℚ) :
    0 ≤ scorePruningResult x t := by
  rw [scorePruningResult]
  exact le_max_left _ _

theorem pruneLoop_eq_results (strats : List Strategy) (content : PyStr)
    (ctype : String) (target : ℚ) :
    pruneLoop strats content ctype target =
      (applicableResults strats content ctype target).foldl
        (fun acc r => if scorePruningResult r target > acc.2
                      then (some r, scorePruningResult r target) else acc)
        (none, -1) := by
  rw [pruneLoop, applicableResults]
  have H : ∀ acc : Option PruningResult × ℚ,
      strats.foldl
        (fun acc st =>
          if st.canPrune content ctype then
            match st.prune content target with
            | .ok result =>
              let score := scorePruningResult result target
              if score > acc.2 then (some result, score) else acc
            | .error _ => acc
          else acc) acc =
      (strats.filterMap
        (fun st => if st.canPrune content ctype
                   then (st.prune content target).toOption else none)).foldl
        (fun acc r => if scorePruningResult r target > acc.2
                      then (some r, scorePruningResult r target) else acc) acc := by
    induction strats with
    | nil => intro acc; rfl
    | cons st strats ih =>
      intro acc
      rw [List.foldl_cons, List.filterMap_cons]
      by_cases hc : st.canPrune content ctype = true
      · cases hp : st.prune content target with
        | ok r =>
          simp only [hc, if_true, hp, Except.toOption, List.foldl_cons]
          exact ih _
        | error e =>
          simp only [hc, if_true, hp, Except.toOption]
          exact ih _
      · simp only [bool_eq_false_of_ne_true hc, Bool.false_eq_true, if_false]
        exact ih _
  exact H _

theorem selectFold_some (target : ℚ) (rs : List PruningResult) :
    ∀ b : PruningResult,
      rs.foldl
        (fun acc r => if scorePruningResult r target > acc.2
                      then (some r, scorePruningResult r target) else acc)
        (some b, scorePruningResult b target) =
      (some (rs.foldl
          (fun best x => if scorePruningResult x target >
              scorePruningResult best target then x else best) b),
        scorePruningResult
          (rs.foldl
            (fun best x => if scorePruningResult x target >
                scorePruningResult best target then x else best) b) target) := by
  induction rs with
  | nil => intro b; rfl
  | cons x rs ih =>
    intro b
    rw [List.foldl_cons, List.foldl_cons]
    by_cases hx : scorePruningResult x target > scorePruningResult b target
    · rw [if_pos hx, if_pos hx]
      exact ih x
    · rw [if_neg hx, if_neg hx]
      exact ih b

theorem selectFold_firstMax (target : ℚ) (rs : List PruningResult) :
    ∀ b : PruningResult,
      (rs.foldl
          (fun best x => if scorePruningResult x target >
              scorePruningResult best target then x else best) b = b ∧
        ∀ x ∈ rs, scorePruningResult x target ≤ scorePruningResult b target) ∨
      (∃ l₁ r l₂, rs = l₁ ++ r :: l₂ ∧
        rs.foldl
          (fun best x => if scorePruningResult x target >
              scorePruningResult best target then x else best) b = r ∧
        scorePruningResult b target < scorePruningResult r target ∧
        (∀ x ∈ l₁, scorePruningResult x target < scorePruningResult r target) ∧
        (∀ x ∈ l₂, scorePruningResult x target ≤ scorePruningResult r target)) := by
  induction rs with
  | nil => intro b; left; exact ⟨rfl, by simp⟩
  | cons x rs ih =>
    intro b
    rw [List.foldl_cons]
    by_cases hx : scorePruningResult x target > scorePruningResult b target
    · rw [if_pos hx]
      rcases ih x with ⟨heq, hle⟩ | ⟨l₁, r, l₂, hsplit, heq, hgt, hl₁, hl₂⟩
      · right
        exact ⟨[], x, rs, rfl, heq, hx, by simp, hle⟩
      · right
        refine ⟨x :: l₁, r, l₂, by rw [hsplit]; rfl, heq, lt_trans hx hgt, ?_, hl₂⟩
        intro y hy
        rcases List.mem_cons.mp hy with rfl | hy
        · exact hgt
        · exact hl₁ y hy
    · rw [if_neg hx]
      push_neg at hx
      rcases ih b with ⟨heq, hle⟩ | ⟨l₁, r, l₂, hsplit, heq, hgt, hl₁, hl₂⟩
      · left
        refine ⟨heq, ?_⟩
        intro y hy
        rcases List.mem_cons.mp hy with rfl | hy
        · exact hx
        · exact hle y hy
      · right
        refine ⟨x :: l₁, r, l₂, by rw [hsplit]; rfl, heq, hgt, ?_, hl₂⟩
        intro y hy
        rcases List.mem_cons.mp hy with rfl | hy
        · exact lt_of_le_of_lt hx hgt
        · exact hl₁ y hy

/-- Claim C8, amended.  The orchestrator scores each applicable strategy's
result as `max(0, quality*100 + (20 if achieved ≥ target else −50*shortfall)
− 5*warnings + 2*safeOps − 5*aggressiveOps)` — the raw formula clamped at
zero — and returns the earliest result attaining the strictly highest
clamped score. -/
theorem pruneContent_firstMaxScore (codeP docP genP : Strategy)
    (content : PyStr) (contentType : String) (target : ℚ)
    (hne : applicableResults (availableStrategies codeP docP genP contentType)
        content contentType target ≠ []) :
    (∀ (x : PruningResult) (t : ℚ), scorePruningResult x t = max 0 (specScore x t)) ∧
    ∃ l₁ r l₂,
      applicableResults (availableStrategies codeP docP genP contentType)
          content contentType target = l₁ ++ r :: l₂ ∧
      pruneContent codeP docP genP content contentType target = r ∧
      (∀ x ∈ l₁, scorePruningResult x target < scorePruningResult r target) ∧
      (∀ x ∈ l₂, scorePruningResult x target ≤ scorePruningResult r target) := by
  refine ⟨scorePruningResult_eq_clamp, ?_⟩
  rcases hres : applicableResults (availableStrategies codeP docP genP contentType)
      content contentType target with - | ⟨r0, rest⟩
  · exact absurd hres hne
  have hstep : pruneLoop (availableStrategies codeP docP genP contentType)
      content contentType target =
      (rest.foldl
        (fun acc r => if scorePruningResult r target > acc.2
                      then (some r, scorePruningResult r target) else acc)
        (some r0, scorePruningResult r0 target)) := by
    rw [pruneLoop_eq_results, hres, List.foldl_cons]
    have h0 : scorePruningResult r0 target > (-1 : ℚ) :=
      lt_of_lt_of_le (by norm_num) (scorePruningResult_nonneg r0 target)
    rw [if_pos h0]
  rw [selectFold_some] at hstep
  rcases selectFold_firstMax target rest r0 with ⟨heq, hle⟩ |
      ⟨l₁, r, l₂, hsplit, heq, hgt, hl₁, hl₂⟩
  · refine ⟨[], r0, rest, by simp, ?_, by simp, hle⟩
    rw [pruneContent, hstep, heq]
  · refine ⟨r0 :: l₁, r, l₂, by rw [hsplit]; rfl, ?_, ?_, hl₂⟩
    · rw [pruneContent, hstep, heq]
    · intro y hy
      rcases List.mem_cons.mp hy with rfl | hy
      · exact hgt
      · exact hl₁ y hy

/-- Counterexample to C8 as stated: with the raw (unclamped) formula the
second strategy's result scores strictly higher (−30 against −35), but both
clamp to 0, so the orchestrator keeps the first result — not the one with
the highest formula score. -/
theorem strategyScoring_counterexample :
    pruneContent cexStratA cexStratB cexStratB "x".toList "code" (1/2) =
      cexResultA ∧
    specScore cexResultA (1/2) = -35 ∧
    specScore cexResultB (1/2) = -30 ∧
    scorePruningResult cexResultA (1/2) = 0 ∧
    scorePruningResult cexResultB (1/2) = 0 ∧
    cexResultA ≠ cexResultB := by
  have hA : specScore cexResultA (1/2) = -35 := by
    rw [specScore, cexResultA]
    norm_num
  have hB : specScore cexResultB (1/2) = -30 := by
    rw [specScore, cexResultB]
    norm_num
  have hcA : scorePruningResult cexResultA (1/2) = 0 := by
    rw [scorePruningResult_eq_clamp, hA]
    norm_num
  have hcB : scorePruningResult cexResultB (1/2) = 0 := by
    rw [scorePruningResult_eq_clamp, hB]
    norm_num
  refine ⟨?_, hA, hB, hcA, hcB, by decide⟩
  have hav : availableStrategies cexStratA cexStratB cexStratB "code" =
      [cexStratA, cexStratB] := rfl
  rw [pruneContent, pruneLoop_eq_results, hav]
  have hres : applicableResults [cexStratA, cexStratB] "x".toList "code" (1/2) =
      [cexResultA, cexResultB] := rfl
  rw [hres]
  rw [List.foldl_cons, if_pos (by rw [hcA]; norm_num), List.foldl_cons,
    if_neg (by rw [hcA, hcB]; norm_num), List.foldl_nil]

/-- Witness for C8 at the two concrete strategies: the returned result is
the head of the applicable-results list. -/
theorem pruneContent_firstMaxScore_witness :
    pruneContent cexStratA cexStratB cexStratB "y".toList "code" (3/4) =
      cexResultA := by
  have hres : applicableResults
      (availableStrategies cexStratA cexStratB cexStratB "code")
      "y".toList "code" (3/4) = [cexResultA, cexResultB] := rfl
  rcases (pruneContent_firstMaxScore cexStratA cexStratB cexStratB
      "y".toList "code" (3/4) (by rw [hres]; simp)).2
    with ⟨l₁, r, l₂, hsplit, heq, hl₁, -⟩
  rw [hres] at hsplit
  rcases l₁ with - | ⟨a, l₁⟩
  · simp only [List.nil_append] at hsplit
    injection hsplit with h1 h2
    rw [heq, ← h1]
  · -- l₁ nonempty: its head is cexResultA and r comes later; show the
    -- strict-score condition forces this branch to be impossible
    have ha : a = cexResultA := by
      have := congrArg (fun l => l.head?) hsplit
      simpa using this.symm
    have hscoreA : scorePruningResult cexResultA (3/4) = 0 := by
      rw [scorePruningResult_eq_clamp]
      rw [specScore, cexResultA]
      norm_num
    have hrmem : r ∈ [cexResultA, cexResultB] := by
      rw [hsplit]
      exact List.mem_append_right _ (List.mem_cons_self _ _)
    have hscorer : scorePruningResult r (3/4) = 0 := by
      rcases List.mem_cons.mp hrmem with rfl | hr
      · exact hscoreA
      rcases List.mem_cons.mp hr with rfl | hr
      · rw [scorePruningResult_eq_clamp]
        rw [specScore, cexResultB]
        norm_num
      · exact absurd hr (List.not_mem_nil r)
    have := hl₁ a (List.mem_cons_self a l₁)
    rw [ha, hscoreA, hscorer] at this
    exact absurd this (lt_irrefl 0)

/-! ## Cache structural lemmas: keys, access order and sizes -/

theorem map_fst_eraseKey (c : List (String × CacheEntry α)) (k : String) :
    (eraseKey c k).map Prod.fst = (c.map Prod.fst).filter (· != k) := by
  induction c with
  | nil => rfl
  | cons p c ih =>
    rw [eraseKey_cons]
    by_cases h : p.1 = k
    · rw [if_pos h, List.map_cons, List.filter_cons]
      have : (p.1 != k) = false := by simp [h]
      rw [this]
      simpa using ih
    · rw [if_neg h, List.map_cons, List.map_cons, List.filter_cons]
      have : (p.1 != k) = true := by simp [bne_iff_ne, h]
      rw [this]
      simp only [if_true]
      rw [ih]

theorem map_fst_setEntry (c : List (String × CacheEntry α)) (k : String)
    (e : CacheEntry α) :
    (setEntry c k e).map Prod.fst = (eraseKey c k).map Prod.fst ++ [k] := by
  simp [setEntry]

theorem lookupEntry_isSome_iff (c : List (String × CacheEntry α)) (k : String) :
    (lookupEntry c k).isSome = true ↔ k ∈ c.map Prod.fst := by
  induction c with
  | nil => simp [lookupEntry]
  | cons p c ih =>
    rw [lookupEntry_cons]
    by_cases h : p.1 = k
    · simp [h]
    · rw [if_neg h]
      simp only [List.map_cons, List.mem_cons]
      rw [ih]
      constructor
      · exact fun hm => Or.inr hm
      · rintro (rfl | hm)
        · exact absurd rfl h
        · exact hm

theorem totalSizeOf_eq_eraseKey_add (c : List (String × CacheEntry α))
    (k : String) (e : CacheEntry α) (hnd : (c.map Prod.fst).Nodup)
    (h : lookupEntry c k = some e) :
    totalSizeOf c = totalSizeOf (eraseKey c k) + e.sizeBytes := by
  induction c with
  | nil => exact absurd h (by simp [lookupEntry])
  | cons p c ih =>
    rw [lookupEntry_cons] at h
    rw [List.map_cons, List.nodup_cons] at hnd
    rw [eraseKey_cons, totalSizeOf_cons]
    by_cases hp : p.1 = k
    · rw [if_pos hp] at h ⊢
      injection h with h
      have hnotin : (lookupEntry c k).isSome = false := by
        rcases hb : (lookupEntry c k).isSome with - | -
        · rfl
        · exact absurd (hp ▸ (lookupEntry_isSome_iff c k).mp hb) hnd.1
      have : eraseKey c k = c := by
        rw [eraseKey]
        apply List.filter_eq_self.mpr
        intro q hq
        have : q.1 ≠ k := by
          intro hqk
          have : (lookupEntry c k).isSome = true := by
            rw [lookupEntry_isSome_iff]
            exact hqk ▸ List.mem_map_of_mem Prod.fst hq
          rw [this] at hnotin
          exact absurd hnotin (by simp)
        simp [bne_iff_ne, this]
      rw [this, h]
      omega
    · rw [if_neg hp] at h ⊢
      rw [totalSizeOf_cons, ih hnd.2 h]
      omega

theorem updateAccessOrder_nodup (o : List String) (k : String) (h : o.Nodup) :
    (updateAccessOrder o k).Nodup := by
  rw [updateAccessOrder]
  apply List.Nodup.append ((List.Nodup.erase_eq_filter h k).symm ▸ h.filter _)
  · exact List.nodup_singleton k
  · intro a ha hb
    rw [List.mem_singleton] at hb
    subst hb
    exact (List.Nodup.mem_erase_iff h).mp ha |>.1 rfl

theorem perm_setEntry_updateAccessOrder (c : List (String × CacheEntry α))
    (o : List String) (k : String) (e : CacheEntry α) (hnd : o.Nodup)
    (hperm : List.Perm (c.map Prod.fst) o) :
    List.Perm ((setEntry c k e).map Prod.fst) (updateAccessOrder o k) := by
  rw [map_fst_setEntry, updateAccessOrder]
  apply List.Perm.append_right
  rw [map_fst_eraseKey, List.Nodup.erase_eq_filter hnd k]
  exact hperm.filter _

theorem perm_eraseKey_eraseOrder (c : List (String × CacheEntry α))
    (o : List String) (k : String) (hnd : o.Nodup)
    (hperm : List.Perm (c.map Prod.fst) o) :
    List.Perm ((eraseKey c k).map Prod.fst) (o.erase k) := by
  rw [map_fst_eraseKey, List.Nodup.erase_eq_filter hnd k]
  exact hperm.filter _

theorem removeEntry_inv (s : CacheState α) (k : String) (h : CacheInv s) :
    CacheInv (removeEntry s k) := by
  obtain ⟨hnd, hperm⟩ := h
  exact ⟨hnd.erase k, perm_eraseKey_eraseOrder s.cache s.accessOrder k hnd hperm⟩

/-! ## Specification of the eviction loop -/

theorem msLoop_spec (target : ℤ) (order : List String) :
    ∀ (c : List (String × CacheEntry α)) (cur : ℤ),
      order.Nodup →
      List.Perm (c.map Prod.fst) order →
      cur = (totalSizeOf c : ℤ) →
      ((msLoop target order c cur).2.2 = lruEvictionsNeeded target order c) ∧
      ((totalSizeOf (msLoop target order c cur).1 : ℤ) ≤ target ∨
        (msLoop target order c cur).1 = []) ∧
      (msLoop target order c cur).2.1.Nodup ∧
      List.Perm ((msLoop target order c cur).1.map Prod.fst)
        (msLoop target order c cur).2.1 := by
  induction order with
  | nil =>
    intro c cur hnd hperm hcur
    have hc : c.map Prod.fst = [] := hperm.eq_nil
    have hc' : c = [] := List.map_eq_nil.mp hc
    subst hc'
    exact ⟨rfl, Or.inr rfl, List.nodup_nil, List.Perm.refl _⟩
  | cons k rest ih =>
    intro c cur hnd hperm hcur
    obtain ⟨hk, hndr⟩ := List.nodup_cons.mp hnd
    by_cases hgt : cur > target
    · have hmem : k ∈ c.map Prod.fst := hperm.mem_iff.mpr (List.mem_cons_self k rest)
      have hsome : (lookupEntry c k).isSome = true := (lookupEntry_isSome_iff c k).mpr hmem
      obtain ⟨e, he⟩ := Option.isSome_iff_exists.mp hsome
      have hndc : (c.map Prod.fst).Nodup := (hperm.nodup_iff).mpr hnd
      have hperm' : List.Perm ((eraseKey c k).map Prod.fst) rest := by
        rw [map_fst_eraseKey]
        have h1 := hperm.filter (· != k)
        rw [List.filter_cons] at h1
        have h2 : (k != k) = false := by simp
        rw [h2] at h1
        simp only [Bool.false_eq_true, if_false] at h1
        have h3 : rest.filter (· != k) = rest := by
          apply List.filter_eq_self.mpr
          intro a ha
          simp only [bne_iff_ne, ne_eq, decide_eq_true_eq]
          intro hak
          exact hk (hak ▸ ha)
        rwa [h3] at h1
      have htot := totalSizeOf_eq_eraseKey_add c k e hndc he
      have hcur' : cur - e.sizeBytes = (totalSizeOf (eraseKey c k) : ℤ) := by
        rw [hcur, htot]
        push_cast
        ring
      obtain ⟨ihcount, ihbound, ihnd, ihperm⟩ :=
        ih (eraseKey c k) (cur - e.sizeBytes) hndr hperm' hcur'
      have hstep : msLoop target (k :: rest) c cur =
          ((msLoop target rest (eraseKey c k) (cur - e.sizeBytes)).1,
           (msLoop target rest (eraseKey c k) (cur - e.sizeBytes)).2.1,
           (msLoop target rest (eraseKey c k) (cur - e.sizeBytes)).2.2 + 1) := by
        rw [msLoop, if_pos hgt, he]
      rw [hstep]
      dsimp only
      refine ⟨?_, ihbound, ihnd, ihperm⟩
      rw [lruEvictionsNeeded, if_neg (by omega), ihcount]
      omega
    · have hstep : msLoop target (k :: rest) c cur = (c, k :: rest, 0) := by
        rw [msLoop, if_neg hgt]
      rw [hstep]
      dsimp only
      refine ⟨?_, Or.inl (by omega), hnd, hperm⟩
      rw [lruEvictionsNeeded, if_pos (by omega)]

theorem setOp_spec (cfg : CacheConfig) (gz : PyStr → List Nat) (now : ℤ)
    (k : String) (content : PyStr) (meta : α) (s : CacheState α)
    (hInv : CacheInv s)
    (hbound : totalSizeOf s.cache ≤ cfg.maxSizeBytes)
    (hsize : setStoredSize cfg gz content ≤ cfg.maxSizeBytes) :
    CacheInv (setOp cfg gz now k content meta s).2 ∧
    totalSizeOf (setOp cfg gz now k content meta s).2.cache ≤ cfg.maxSizeBytes ∧
    (setOp cfg gz now k content meta s).2.stats.evictionCount =
      s.stats.evictionCount +
      (if content.isEmpty then 0
       else if totalSizeOf s.cache + setStoredSize cfg gz content ≤ cfg.maxSizeBytes
         then 0
       else lruEvictionsNeeded
              ((cfg.maxSizeBytes : ℤ) - (setStoredSize cfg gz content : ℤ))
              s.accessOrder s.cache) ∧
    (content ≠ [] → (setOp cfg gz now k content meta s).1 = true) := by
  obtain ⟨hnd, hperm⟩ := hInv
  have hss : setStoredSize cfg gz content =
      storedSizeBytes (compressContent cfg gz content).1 := rfl
  by_cases hE : content.isEmpty = true
  · have hc : content = [] := by
      cases content
      · rfl
      · exact absurd hE (by simp)
    have hset : setOp cfg gz now k content meta s = (false, s) := by
      rw [setOp, if_pos hE]
    rw [hset, hE]
    exact ⟨⟨hnd, hperm⟩, hbound, by simp, fun hne => absurd hc hne⟩
  · have hE' : content.isEmpty = false := bool_eq_false_of_ne_true hE
    rw [hss]
    by_cases hsp : totalSizeOf s.cache +
        storedSizeBytes (compressContent cfg gz content).1 ≤ cfg.maxSizeBytes
    · have hset : setOp cfg gz now k content meta s =
          (true,
           { cache := setEntry s.cache k
               { key := k, content := (compressContent cfg gz content).1,
                 userMeta := meta, originalSize := utf8Len content,
                 compressed := (compressContent cfg gz content).2 < 1,
                 compressionRatio := (compressContent cfg gz content).2,
                 createdAt := now, accessedAt := now, accessCount := 1,
                 sizeBytes := storedSizeBytes (compressContent cfg gz content).1 }
             accessOrder := updateAccessOrder s.accessOrder k
             stats := { s.stats with
               totalEntries := (setEntry s.cache k
                 { key := k, content := (compressContent cfg gz content).1,
                   userMeta := meta, originalSize := utf8Len content,
                   compressed := (compressContent cfg gz content).2 < 1,
                   compressionRatio := (compressContent cfg gz content).2,
                   createdAt := now, accessedAt := now, accessCount := 1,
                   sizeBytes := storedSizeBytes (compressContent cfg gz content).1 }).length
               totalSizeBytes := totalSizeOf (setEntry s.cache k
                 { key := k, content := (compressContent cfg gz content).1,
                   userMeta := meta, originalSize := utf8Len content,
                   compressed := (compressContent cfg gz content).2 < 1,
                   compressionRatio := (compressContent cfg gz content).2,
                   createdAt := now, accessedAt := now, accessCount := 1,
                   sizeBytes := storedSizeBytes (compressContent cfg gz content).1 })
               evictionCount := s.stats.evictionCount + 0
               compressionSavingsBytes := s.stats.compressionSavingsBytes +
                 (if (compressContent cfg gz content).2 < 1
                  then (utf8Len content : ℤ) -
                    (storedSizeBytes (compressContent cfg gz content).1 : ℤ)
                  else 0) } }) := by
        rw [setOp, if_neg (by rw [hE']; exact Bool.false_ne_true)]
        dsimp only
        rw [if_pos hsp]
      rw [hset]
      refine ⟨⟨updateAccessOrder_nodup _ _ hnd,
        perm_setEntry_updateAccessOrder _ _ _ _ hnd hperm⟩, ?_, ?_, fun _ => rfl⟩
      · dsimp only
        rw [totalSizeOf_setEntry]
        have := totalSizeOf_eraseKey_le s.cache k
        dsimp only at this ⊢
        omega
      · dsimp only
        rw [hE']
        simp only [Bool.false_eq_true, if_false, if_pos hsp]
    · have hms := msLoop_spec ((cfg.maxSizeBytes : ℤ) -
          (storedSizeBytes (compressContent cfg gz content).1 : ℤ))
          s.accessOrder s.cache (totalSizeOf s.cache : ℤ) hnd hperm rfl
      obtain ⟨hcount, hbound', hnd', hperm'⟩ := hms
      have hset : setOp cfg gz now k content meta s =
          (true,
           { cache := setEntry (msLoop ((cfg.maxSizeBytes : ℤ) -
                 (storedSizeBytes (compressContent cfg gz content).1 : ℤ))
                 s.accessOrder s.cache (totalSizeOf s.cache : ℤ)).1 k
               { key := k, content := (compressContent cfg gz content).1,
                 userMeta := meta, originalSize := utf8Len content,
                 compressed := (compressContent cfg gz content).2 < 1,
                 compressionRatio := (compressContent cfg gz content).2,
                 createdAt := now, accessedAt := now, accessCount := 1,
                 sizeBytes := storedSizeBytes (compressContent cfg gz content).1 }
             accessOrder := updateAccessOrder (msLoop ((cfg.maxSizeBytes : ℤ) -
                 (storedSizeBytes (compressContent cfg gz content).1 : ℤ))
                 s.accessOrder s.cache (totalSizeOf s.cache : ℤ)).2.1 k
             stats := { s.stats with
               totalEntries := (setEntry (msLoop ((cfg.maxSizeBytes : ℤ) -
                   (storedSizeBytes (compressContent cfg gz content).1 : ℤ))
                   s.accessOrder s.cache (totalSizeOf s.cache : ℤ)).1 k
                 { key := k, content := (compressContent cfg gz content).1,
                   userMeta := meta, originalSize := utf8Len content,
                   compressed := (compressContent cfg gz content).2 < 1,
                   compressionRatio := (compressContent cfg gz content).2,
                   createdAt := now, accessedAt := now, accessCount := 1,
                   sizeBytes := storedSizeBytes (compressContent cfg gz content).1 }).length
               totalSizeBytes := totalSizeOf (setEntry (msLoop ((cfg.maxSizeBytes : ℤ) -
                   (storedSizeBytes (compressContent cfg gz content).1 : ℤ))
                   s.accessOrder s.cache (totalSizeOf s.cache : ℤ)).1 k
                 { key := k, content := (compressContent cfg gz content).1,
                   userMeta := meta, originalSize := utf8Len content,
                   compressed := (compressContent cfg gz content).2 < 1,
                   compressionRatio := (compressContent cfg gz content).2,
                   createdAt := now, accessedAt := now, accessCount := 1,
                   sizeBytes := storedSizeBytes (compressContent cfg gz content).1 })
               evictionCount := s.stats.evictionCount + (msLoop ((cfg.maxSizeBytes : ℤ) -
                   (storedSizeBytes (compressContent cfg gz content).1 : ℤ))
                   s.accessOrder s.cache (totalSizeOf s.cache : ℤ)).2.2
               compressionSavingsBytes := s.stats.compressionSavingsBytes +
                 (if (compressContent cfg gz content).2 < 1
                  then (utf8Len content : ℤ) -
                    (storedSizeBytes (compressContent cfg gz content).1 : ℤ)
                  else 0) } }) := by
        rw [setOp, if_neg (by rw [hE']; exact Bool.false_ne_true)]
        dsimp only
        rw [if_neg hsp]
      rw [hset]
      refine ⟨⟨updateAccessOrder_nodup _ _ hnd',
        perm_setEntry_updateAccessOrder _ _ _ _ hnd' hperm'⟩, ?_, ?_, fun _ => rfl⟩
      · dsimp only
        rw [totalSizeOf_setEntry]
        rcases hbound' with hb | hb
        · have := totalSizeOf_eraseKey_le (msLoop ((cfg.maxSizeBytes : ℤ) -
              (storedSizeBytes (compressContent cfg gz content).1 : ℤ))
              s.accessOrder s.cache (totalSizeOf s.cache : ℤ)).1 k
          rw [hss] at hsize
          dsimp only
          omega
        · rw [hb]
          rw [hss] at hsize
          simp only [eraseKey, List.filter_nil, totalSizeOf, List.map_nil,
            List.sum_nil]
          omega
      · dsimp only
        rw [hE']
        simp only [Bool.false_eq_true, if_false, if_neg hsp]
        rw [hcount]

/-! ## Claim C1: eviction keeps the byte budget — except for oversized
entries -/

/-- Counterexample to C1 as stated: an 11-byte payload against a 10-byte
budget is still inserted after the eviction loop exhausts the (empty) access
order, so `set` succeeds and the stored total exceeds the budget. -/
theorem evictionBound_counterexample :
    (setOp { maxSizeBytes := 10, ttlSeconds := 10, compressionEnabled := false }
      (fun _ => []) 0 "k" (List.replicate 11 'a') () (emptyCacheState Unit)).1 = true ∧
    10 < totalSizeOf
      (setOp { maxSizeBytes := 10, ttlSeconds := 10, compressionEnabled := false }
        (fun _ => []) 0 "k" (List.replicate 11 'a') ()
        (emptyCacheState Unit)).2.cache := by
  constructor
  · decide
  · decide

theorem applySetOps_step (cfg : CacheConfig) (gz : PyStr → List Nat)
    (s0 : CacheState α) (ops : List (ℤ × String × PyStr × α)) (n : Nat)
    (h : n < ops.length) :
    applySetOps cfg gz s0 (ops.take (n + 1)) =
      (setOp cfg gz (ops.get ⟨n, h⟩).1 (ops.get ⟨n, h⟩).2.1
        (ops.get ⟨n, h⟩).2.2.1 (ops.get ⟨n, h⟩).2.2.2
        (applySetOps cfg gz s0 (ops.take n))).2 := by
  rw [applySetOps, applySetOps, List.take_succ, List.foldl_append]
  rw [List.getElem?_eq_getElem h]
  simp only [List.get_eq_getElem, Option.toList_some, List.foldl_cons, List.foldl_nil]

/-- Claim C1, amended.  Provided every inserted payload's stored
(post-compression) size fits the byte budget on its own, any sequence of
`set` calls keeps the stored total within `max_size_bytes`; each `set`
succeeds (returns `True` for non-empty payloads), and the eviction counter
grows per call by exactly the number of least-recently-used removals needed
to fit the new entry (zero when it already fits).  Without that proviso the
bound fails (`evictionBound_counterexample`). -/
theorem cacheEvictionBound (cfg : CacheConfig) (gz : PyStr → List Nat)
    (ops : List (ℤ × String × PyStr × α)) (s0 : CacheState α)
    (hInv : CacheInv s0) (hb : totalSizeOf s0.cache ≤ cfg.maxSizeBytes)
    (hops : ∀ op ∈ ops, setStoredSize cfg gz op.2.2.1 ≤ cfg.maxSizeBytes) :
    (∀ n, totalSizeOf (applySetOps cfg gz s0 (ops.take n)).cache ≤ cfg.maxSizeBytes) ∧
    (∀ (n : Nat) (h : n < ops.length),
      ((ops.get ⟨n, h⟩).2.2.1 ≠ [] →
        (setOp cfg gz (ops.get ⟨n, h⟩).1 (ops.get ⟨n, h⟩).2.1
          (ops.get ⟨n, h⟩).2.2.1 (ops.get ⟨n, h⟩).2.2.2
          (applySetOps cfg gz s0 (ops.take n))).1 = true) ∧
      (applySetOps cfg gz s0 (ops.take (n + 1))).stats.evictionCount =
        (applySetOps cfg gz s0 (ops.take n)).stats.evictionCount +
        (if (ops.get ⟨n, h⟩).2.2.1.isEmpty then 0
         else if totalSizeOf (applySetOps cfg gz s0 (ops.take n)).cache +
             setStoredSize cfg gz (ops.get ⟨n, h⟩).2.2.1 ≤ cfg.maxSizeBytes then 0
         else lruEvictionsNeeded
           ((cfg.maxSizeBytes : ℤ) - (setStoredSize cfg gz (ops.get ⟨n, h⟩).2.2.1 : ℤ))
           (applySetOps cfg gz s0 (ops.take n)).accessOrder
           (applySetOps cfg gz s0 (ops.take n)).cache)) := by
  have key : ∀ n, CacheInv (applySetOps cfg gz s0 (ops.take n)) ∧
      totalSizeOf (applySetOps cfg gz s0 (ops.take n)).cache ≤ cfg.maxSizeBytes := by
    intro n
    induction n with
    | zero =>
      rw [List.take_zero]
      exact ⟨hInv, hb⟩
    | succ n ihn =>
      by_cases h : n < ops.length
      · rw [applySetOps_step cfg gz s0 ops n h]
        have hmem : ops.get ⟨n, h⟩ ∈ ops := List.get_mem ops n h
        obtain ⟨hi, hb', -, -⟩ := setOp_spec cfg gz (ops.get ⟨n, h⟩).1
          (ops.get ⟨n, h⟩).2.1 (ops.get ⟨n, h⟩).2.2.1 (ops.get ⟨n, h⟩).2.2.2
          (applySetOps cfg gz s0 (ops.take n)) ihn.1 ihn.2
          (hops _ hmem)
        exact ⟨hi, hb'⟩
      · push_neg at h
        have e1 : ops.take (n + 1) = ops := List.take_of_length_le (by omega)
        have e2 : ops.take n = ops := List.take_of_length_le h
        rw [e1, ← e2]
        exact ihn
  refine ⟨fun n => (key n).2, fun n h => ?_⟩
  have hmem : ops.get ⟨n, h⟩ ∈ ops := List.get_mem ops n h
  obtain ⟨-, -, hev, hret⟩ := setOp_spec cfg gz (ops.get ⟨n, h⟩).1
    (ops.get ⟨n, h⟩).2.1 (ops.get ⟨n, h⟩).2.2.1 (ops.get ⟨n, h⟩).2.2.2
    (applySetOps cfg gz s0 (ops.take n)) (key n).1 (key n).2 (hops _ hmem)
  refine ⟨hret, ?_⟩
  rw [applySetOps_step cfg gz s0 ops n h]
  exact hev

/-- Witness for C1: two bounded inserts against a 10-byte budget; after both
the total still fits. -/
theorem cacheEvictionBound_witness :
    totalSizeOf (applySetOps { maxSizeBytes := 10, ttlSeconds := 10, compressionEnabled := false }
      (fun _ => []) (emptyCacheState Unit)
      ([(0, "a", List.replicate 6 'x', ()), (1, "b", List.replicate 8 'x', ())].take 2)).cache ≤ 10 :=
  (cacheEvictionBound { maxSizeBytes := 10, ttlSeconds := 10, compressionEnabled := false }
    (fun _ => [])
    [(0, "a", List.replicate 6 'x', ()), (1, "b", List.replicate 8 'x', ())]
    (emptyCacheState Unit) (by constructor <;> decide) (by decide) (by decide)).1 2

/-! ## Claim C10: the access-order list stays in sync with the cache map -/

theorem setOp_inv (cfg : CacheConfig) (gz : PyStr → List Nat) (now : ℤ)
    (k : String) (content : PyStr) (meta : α) (s : CacheState α)
    (hInv : CacheInv s) : CacheInv (setOp cfg gz now k content meta s).2 := by
  obtain ⟨hnd, hperm⟩ := hInv
  by_cases hE : content.isEmpty = true
  · rw [setOp, if_pos hE]
    exact ⟨hnd, hperm⟩
  · have hE' := bool_eq_false_of_ne_true hE
    rw [setOp, if_neg (by rw [hE']; exact Bool.false_ne_true)]
    dsimp only
    by_cases hsp : totalSizeOf s.cache +
        storedSizeBytes (compressContent cfg gz content).1 ≤ cfg.maxSizeBytes
    · rw [if_pos hsp]
      exact ⟨updateAccessOrder_nodup _ _ hnd,
        perm_setEntry_updateAccessOrder _ _ _ _ hnd hperm⟩
    · rw [if_neg hsp]
      obtain ⟨-, -, hnd', hperm'⟩ := msLoop_spec ((cfg.maxSizeBytes : ℤ) -
        (storedSizeBytes (compressContent cfg gz content).1 : ℤ))
        s.accessOrder s.cache (totalSizeOf s.cache : ℤ) hnd hperm rfl
      exact ⟨updateAccessOrder_nodup _ _ hnd',
        perm_setEntry_updateAccessOrder _ _ _ _ hnd' hperm'⟩

theorem foldl_removeEntry_inv (ks : List String) (s : CacheState α)
    (hInv : CacheInv s) :
    CacheInv (ks.foldl (fun st k => removeEntry st k) s) := by
  induction ks generalizing s with
  | nil => exact hInv
  | cons k ks ih =>
    rw [List.foldl_cons]
    exact ih _ (removeEntry_inv s k hInv)

theorem accessTimeOf_congr (c1 c2 : List (String × CacheEntry α)) (a : String)
    (h : lookupEntry c1 a = lookupEntry c2 a) :
    accessTimeOf c1 a = accessTimeOf c2 a := by
  rw [accessTimeOf, accessTimeOf, h]

theorem accessTimeOf_eraseKey_ne (c : List (String × CacheEntry α))
    {k k' : String} (h : k' ≠ k) :
    accessTimeOf (eraseKey c k) k' = accessTimeOf c k' :=
  accessTimeOf_congr _ _ k' (lookupEntry_eraseKey_ne c h)

theorem accessTimeOf_setEntry_ne (c : List (String × CacheEntry α))
    {k k' : String} (e : CacheEntry α) (h : k' ≠ k) :
    accessTimeOf (setEntry c k e) k' = accessTimeOf c k' :=
  accessTimeOf_congr _ _ k' (lookupEntry_setEntry_ne c e h)

theorem accessTimeOf_setEntry_self (c : List (String × CacheEntry α))
    (k : String) (e : CacheEntry α) :
    accessTimeOf (setEntry c k e) k = e.accessedAt := by
  rw [accessTimeOf, lookupEntry_setEntry_self]

theorem accessTimeOf_le_now (now : ℤ) (c : List (String × CacheEntry α))
    (hca : ∀ p ∈ c, p.2.accessedAt ≤ now) (a : String)
    (hs : a ∈ c.map Prod.fst) : accessTimeOf c a ≤ now := by
  have hsome : (lookupEntry c a).isSome = true :=
    (lookupEntry_isSome_iff c a).mpr hs
  rcases hl : lookupEntry c a with - | e
  · rw [hl] at hsome
    simp at hsome
  · have hred : accessTimeOf c a = e.accessedAt := by
      rw [accessTimeOf, hl]
    rw [hred]
    have hmem : ∃ p ∈ c, p.2 = e := by
      rw [lookupEntry] at hl
      rcases Option.map_eq_some'.mp hl with ⟨p, hfind, hp2⟩
      exact ⟨p, List.mem_of_find?_eq_some hfind, hp2⟩
    obtain ⟨p, hpm, hp2⟩ := hmem
    rw [← hp2]
    exact hca p hpm

theorem removeEntry_lru (s : CacheState α) (k : String)
    (hnd : s.accessOrder.Nodup) (hord : LruOrdered s) :
    LruOrdered (removeEntry s k) := by
  rw [LruOrdered] at hord ⊢
  rw [removeEntry]
  dsimp only
  have hsub : (s.accessOrder.erase k).Sublist s.accessOrder :=
    List.erase_sublist k s.accessOrder
  refine List.Pairwise.imp_of_mem ?_ (List.Pairwise.sublist hsub hord)
  intro a b ha hb hab
  have ha' := (List.Nodup.mem_erase_iff hnd).mp ha
  have hb' := (List.Nodup.mem_erase_iff hnd).mp hb
  rw [accessTimeOf_eraseKey_ne s.cache ha'.1,
    accessTimeOf_eraseKey_ne s.cache hb'.1]
  exact hab

theorem foldl_removeEntry_lru (ks : List String) (s : CacheState α)
    (hInv : CacheInv s) (hord : LruOrdered s) :
    LruOrdered (ks.foldl (fun st k => removeEntry st k) s) := by
  induction ks generalizing s with
  | nil => exact hord
  | cons k ks ih =>
    rw [List.foldl_cons]
    exact ih (removeEntry s k) (removeEntry_inv s k hInv)
      (removeEntry_lru s k hInv.1 hord)

theorem lru_touch (now : ℤ) (k : String) (e : CacheEntry α)
    (he : e.accessedAt = now) (s : CacheState α)
    (hnd : s.accessOrder.Nodup)
    (hperm : List.Perm (s.cache.map Prod.fst) s.accessOrder)
    (hord : LruOrdered s) (hca : ClockAhead now s)
    (c0 : List (String × CacheEntry α)) (order0 : List String)
    (hsub : order0.Sublist s.accessOrder)
    (hlk : ∀ a ∈ order0, lookupEntry c0 a = lookupEntry s.cache a) :
    (updateAccessOrder order0 k).Pairwise
      (fun k1 k2 => accessTimeOf (setEntry c0 k e) k1 ≤
        accessTimeOf (setEntry c0 k e) k2) := by
  rw [LruOrdered] at hord
  rw [ClockAhead] at hca
  rw [updateAccessOrder]
  have hnd0 : order0.Nodup := List.Nodup.sublist hsub hnd
  rw [List.pairwise_append]
  refine ⟨?_, List.pairwise_singleton _ _, ?_⟩
  · have hsub2 : (order0.erase k).Sublist s.accessOrder :=
      (List.erase_sublist k order0).trans hsub
    refine List.Pairwise.imp_of_mem ?_ (List.Pairwise.sublist hsub2 hord)
    intro a b ha hb hab
    have ha' := (List.Nodup.mem_erase_iff hnd0).mp ha
    have hb' := (List.Nodup.mem_erase_iff hnd0).mp hb
    rw [accessTimeOf_setEntry_ne c0 e ha'.1,
      accessTimeOf_setEntry_ne c0 e hb'.1,
      accessTimeOf_congr c0 s.cache a (hlk a ha'.2),
      accessTimeOf_congr c0 s.cache b (hlk b hb'.2)]
    exact hab
  · intro a ha b hb
    rw [List.mem_singleton] at hb
    subst hb
    have ha' := (List.Nodup.mem_erase_iff hnd0).mp ha
    rw [accessTimeOf_setEntry_ne c0 e ha'.1, accessTimeOf_setEntry_self, he,
      accessTimeOf_congr c0 s.cache a (hlk a ha'.2)]
    have ham : a ∈ s.accessOrder := hsub.subset ha'.2
    have hmap : a ∈ s.cache.map Prod.fst := hperm.mem_iff.mpr ham
    exact accessTimeOf_le_now now s.cache hca a hmap

theorem msLoop_lookup (target : ℤ) : ∀ (order : List String)
    (c : List (String × CacheEntry α)) (cur : ℤ), order.Nodup →
    (msLoop target order c cur).2.1.Sublist order ∧
    (∀ a ∈ (msLoop target order c cur).2.1,
      lookupEntry (msLoop target order c cur).1 a = lookupEntry c a) := by
  intro order
  induction order with
  | nil =>
    intro c cur _
    exact ⟨List.Sublist.refl _, fun a ha => absurd ha (List.not_mem_nil a)⟩
  | cons k0 rest ih =>
    intro c cur hnd
    rw [msLoop]
    by_cases hgt : cur > target
    · rw [if_pos hgt]
      cases hl : lookupEntry c k0 with
      | some e =>
        dsimp only
        have hndr := (List.nodup_cons.mp hnd).2
        have hk0 := (List.nodup_cons.mp hnd).1
        obtain ⟨hsub, hlk⟩ := ih (eraseKey c k0) (cur - e.sizeBytes) hndr
        refine ⟨hsub.trans (List.sublist_cons_self k0 rest), ?_⟩
        intro a ha
        have hane : a ≠ k0 := fun hak => hk0 (hak ▸ hsub.subset ha)
        rw [hlk a ha, lookupEntry_eraseKey_ne c hane]
      | none =>
        dsimp only
        obtain ⟨hsub, hlk⟩ := ih c cur (List.nodup_cons.mp hnd).2
        exact ⟨hsub.trans (List.sublist_cons_self k0 rest), hlk⟩
    · rw [if_neg hgt]
      exact ⟨List.Sublist.refl _, fun a _ => rfl⟩

theorem setOp_lru (cfg : CacheConfig) (gz : PyStr → List Nat) (now : ℤ)
    (k : String) (content : PyStr) (meta : α) (s : CacheState α)
    (hInv : CacheInv s) (hord : LruOrdered s) (hca : ClockAhead now s) :
    LruOrdered (setOp cfg gz now k content meta s).2 ∧
    (content ≠ [] →
      (setOp cfg gz now k content meta s).2.accessOrder.getLast? = some k) := by
  obtain ⟨hnd, hperm⟩ := hInv
  by_cases hE : content.isEmpty = true
  · rw [setOp, if_pos hE]
    refine ⟨hord, ?_⟩
    intro hne
    exact absurd (List.isEmpty_iff.mp hE) hne
  · have hE' := bool_eq_false_of_ne_true hE
    rw [setOp, if_neg (by rw [hE']; exact Bool.false_ne_true)]
    dsimp only
    by_cases hsp : totalSizeOf s.cache +
        storedSizeBytes (compressContent cfg gz content).1 ≤ cfg.maxSizeBytes
    · rw [if_pos hsp]
      constructor
      · rw [LruOrdered]
        dsimp only
        exact lru_touch now k _ rfl s hnd hperm hord hca s.cache s.accessOrder
          (List.Sublist.refl _) (fun a _ => rfl)
      · intro _
        dsimp only
        rw [updateAccessOrder]
        exact List.getLast?_concat _
    · rw [if_neg hsp]
      obtain ⟨hsub, hlk⟩ := msLoop_lookup ((cfg.maxSizeBytes : ℤ) -
        (storedSizeBytes (compressContent cfg gz content).1 : ℤ))
        s.accessOrder s.cache (totalSizeOf s.cache : ℤ) hnd
      constructor
      · rw [LruOrdered]
        dsimp only
        exact lru_touch now k _ rfl s hnd hperm hord hca _ _ hsub hlk
      · intro _
        rw [updateAccessOrder]
        exact List.getLast?_concat _

theorem getOp_lru (cfg : CacheConfig) (gunz : List Nat → PyStr) (now : ℤ)
    (k : String) (s : CacheState α) (hInv : CacheInv s) (hord : LruOrdered s)
    (hca : ClockAhead now s) :
    LruOrdered (getOp cfg gunz now k s).2 ∧
    (∀ e, lookupEntry s.cache k = some e → isExpired cfg now e = false →
      (getOp cfg gunz now k s).2.accessOrder.getLast? = some k) := by
  obtain ⟨hnd, hperm⟩ := hInv
  rw [getOp]
  cases hl : lookupEntry s.cache k with
  | none =>
    refine ⟨hord, ?_⟩
    intro e he _
    exact absurd he (by simp)
  | some e =>
    dsimp only
    by_cases hexp : isExpired cfg now e = true
    · rw [if_pos hexp]
      refine ⟨?_, ?_⟩
      · have hrem := removeEntry_lru s k hnd hord
        rw [LruOrdered] at hrem ⊢
        dsimp only
        exact hrem
      · intro e' he' hx
        injection he' with he2
        rw [← he2] at hx
        rw [hexp] at hx
        exact absurd hx (by decide)
    · rw [if_neg hexp]
      constructor
      · rw [LruOrdered]
        dsimp only
        exact lru_touch now k (touch now e) rfl s hnd hperm hord hca s.cache
          s.accessOrder (List.Sublist.refl _) (fun a _ => rfl)
      · intro _ _ _
        dsimp only
        rw [updateAccessOrder]
        exact List.getLast?_concat _

/-- Claim C10.  Every public cache operation (`set`, `get`, `delete`,
`clear`, `cleanup_expired`) preserves the full LRU synchronisation of
`_access_order` with `_cache`: the order list holds exactly the keys of the
cache map, each exactly once (`CacheInv`, so no operation leaves a key in
one structure but not the other), and it stays ordered from least recently
to most recently used — positions are sorted by the entries' `accessed_at`
stamps (`LruOrdered`, given that the call's `time.time()` value is not in
the past of any recorded access), and `set` and a non-expired `get` move
the touched key to the most-recently-used end of the list. -/
theorem cacheAccessOrderSync (cfg : CacheConfig) (gz : PyStr → List Nat)
    (gunz : List Nat → PyStr) (now : ℤ) (k : String) (content : PyStr)
    (meta : α) (s : CacheState α) (hInv : CacheInv s) (hord : LruOrdered s)
    (hca : ClockAhead now s) :
    (CacheInv (setOp cfg gz now k content meta s).2 ∧
      LruOrdered (setOp cfg gz now k content meta s).2 ∧
      (content ≠ [] →
        (setOp cfg gz now k content meta s).2.accessOrder.getLast? =
          some k)) ∧
    (CacheInv (getOp cfg gunz now k s).2 ∧
      LruOrdered (getOp cfg gunz now k s).2 ∧
      (∀ e, lookupEntry s.cache k = some e → isExpired cfg now e = false →
        (getOp cfg gunz now k s).2.accessOrder.getLast? = some k)) ∧
    (CacheInv (deleteOp k s).2 ∧ LruOrdered (deleteOp k s).2) ∧
    (CacheInv (clearOp s) ∧ LruOrdered (clearOp s)) ∧
    (CacheInv (cleanupExpiredOp cfg now s).2 ∧
      LruOrdered (cleanupExpiredOp cfg now s).2) := by
  obtain ⟨hs1, hs2⟩ := setOp_lru cfg gz now k content meta s hInv hord hca
  obtain ⟨hg1, hg2⟩ := getOp_lru cfg gunz now k s hInv hord hca
  obtain ⟨hnd, hperm⟩ := hInv
  refine ⟨⟨setOp_inv cfg gz now k content meta s ⟨hnd, hperm⟩, hs1, hs2⟩,
    ⟨?_, hg1, hg2⟩, ⟨?_, ?_⟩,
    ⟨⟨List.nodup_nil, List.Perm.refl _⟩, List.Pairwise.nil⟩,
    ⟨foldl_removeEntry_inv _ s ⟨hnd, hperm⟩,
      foldl_removeEntry_lru _ s ⟨hnd, hperm⟩ hord⟩⟩
  · rw [getOp]
    cases hl : lookupEntry s.cache k with
    | none => exact ⟨hnd, hperm⟩
    | some e =>
      dsimp only
      by_cases hexp : isExpired cfg now e = true
      · rw [if_pos hexp]
        exact removeEntry_inv s k ⟨hnd, hperm⟩
      · rw [if_neg hexp]
        exact ⟨updateAccessOrder_nodup _ _ hnd,
          perm_setEntry_updateAccessOrder _ _ _ _ hnd hperm⟩
  · rw [deleteOp]
    by_cases hl : (lookupEntry s.cache k).isSome = true
    · rw [if_pos hl]
      exact removeEntry_inv s k ⟨hnd, hperm⟩
    · rw [if_neg hl]
      exact ⟨hnd, hperm⟩
  · rw [deleteOp]
    by_cases hl : (lookupEntry s.cache k).isSome = true
    · rw [if_pos hl]
      exact removeEntry_lru s k hnd hord
    · rw [if_neg hl]
      exact hord

/-- Witness for C10 at a concrete one-entry state: `delete` keeps the two
structures synchronised and the surviving order LRU-sorted. -/
theorem cacheAccessOrderSync_witness :
    CacheInv (deleteOp "k"
      ({ cache := [("k",
          { key := "k", content := .raw ['a'], userMeta := (),
            originalSize := 1, compressed := false, compressionRatio := 1,
            createdAt := 0, accessedAt := 0, accessCount := 1,
            sizeBytes := 1 })],
         accessOrder := ["k"], stats := CacheStats.empty } :
              CacheState Unit)).2 ∧
    LruOrdered (deleteOp "k"
      ({ cache := [("k",
          { key := "k", content := .raw ['a'], userMeta := (),
            originalSize := 1, compressed := false, compressionRatio := 1,
            createdAt := 0, accessedAt := 0, accessCount := 1,
            sizeBytes := 1 })],
         accessOrder := ["k"], stats := CacheStats.empty } :
              CacheState Unit)).2 :=
  (cacheAccessOrderSync
    { maxSizeBytes := 100, ttlSeconds := 10, compressionEnabled := false }
    (fun _ => []) (fun _ => []) 0 "k" ['a'] ()
    { cache := [("k",
        { key := "k", content := .raw ['a'], userMeta := (),
          originalSize := 1, compressed := false, compressionRatio := 1,
          createdAt := 0, accessedAt := 0, accessCount := 1,
          sizeBytes := 1 })],
      accessOrder := ["k"], stats := CacheStats.empty }
    (by constructor <;> decide)
    (by rw [LruOrdered]; exact List.pairwise_singleton _ _)
    (by rw [ClockAhead]; decide)).2.2.1

/-! ## Claim C3: cached round trips through `optimize_context` -/

theorem compressContent_cases (cfg : CacheConfig) (gz : PyStr → List Nat)
    (content : PyStr) :
    (compressContent cfg gz content).1 = .raw content ∨
    ((compressContent cfg gz content).1 = .comp (gz content) ∧
      (compressContent cfg gz content).2 < 1) := by
  rw [compressContent]
  by_cases h1 : (!cfg.compressionEnabled) = true
  · rw [if_pos h1]
    left; rfl
  · rw [if_neg h1]
    by_cases h2 : utf8Len content < 1024
    · rw [if_pos h2]
      left; rfl
    · rw [if_neg h2]
      dsimp only
      by_cases h3 : ((gz content).length : ℚ) / (utf8Len content : ℚ) < 4/5
      · rw [if_pos h3]
        right
        exact ⟨rfl, lt_trans h3 (by norm_num)⟩
      · rw [if_neg h3]
        left; rfl

theorem setOp_cache_lookup (cfg : CacheConfig) (gz : PyStr → List Nat)
    (now : ℤ) (k : String) (content : PyStr) (meta : α) (s : CacheState α)
    (hne : content ≠ []) :
    lookupEntry (setOp cfg gz now k content meta s).2.cache k = some
      { key := k, content := (compressContent cfg gz content).1,
        userMeta := meta, originalSize := utf8Len content,
        compressed := decide ((compressContent cfg gz content).2 < 1),
        compressionRatio := (compressContent cfg gz content).2,
        createdAt := now, accessedAt := now, accessCount := 1,
        sizeBytes := storedSizeBytes (compressContent cfg gz content).1 } := by
  have hE' : content.isEmpty = false := by
    cases content
    · exact absurd rfl hne
    · rfl
  rw [setOp, if_neg (by rw [hE']; exact Bool.false_ne_true)]
  dsimp only
  by_cases hsp : totalSizeOf s.cache +
      storedSizeBytes (compressContent cfg gz content).1 ≤ cfg.maxSizeBytes
  · rw [if_pos hsp]
    exact lookupEntry_setEntry_self _ _ _
  · rw [if_neg hsp]
    exact lookupEntry_setEntry_self _ _ _

theorem setOp_getOp_roundtrip (cfg : CacheConfig) (gz : PyStr → List Nat)
    (gunz : List Nat → PyStr) (t1 t2 : ℤ) (k : String) (content : PyStr)
    (meta : α) (s : CacheState α) (hne : content ≠ [])
    (hexp : ¬(t2 - t1 > cfg.ttlSeconds))
    (hrt : gunz (gz content) = content) :
    (getOp cfg gunz t2 k (setOp cfg gz t1 k content meta s).2).1 =
      some { content := content, userMeta := meta, cachedAt := t1,
             accessCount := 2 } := by
  rw [getOp, setOp_cache_lookup cfg gz t1 k content meta s hne]
  dsimp only
  have hnexp : isExpired cfg t2
      ({ key := k, content := (compressContent cfg gz content).1,
         userMeta := meta, originalSize := utf8Len content,
         compressed := decide ((compressContent cfg gz content).2 < 1),
         compressionRatio := (compressContent cfg gz content).2,
         createdAt := t1, accessedAt := t1, accessCount := 1,
         sizeBytes := storedSizeBytes (compressContent cfg gz content).1 } :
        CacheEntry α) = false := by
    rw [isExpired]
    exact decide_eq_false hexp
  rw [if_neg (by rw [hnexp]; exact Bool.false_ne_true)]
  have hdec : decompressContent gunz
      (decide ((compressContent cfg gz content).2 < 1))
      (compressContent cfg gz content).1 = content := by
    rcases compressContent_cases cfg gz content with hc | ⟨hc, hr⟩
    · rw [hc, decompressContent]
    · rw [hc, decompressContent, if_pos (decide_eq_true hr), hrt]
  rw [touch]
  dsimp only
  rw [hdec]

/-- Counterexample to C3 as stated: when the original token count already
fits the target, `optimize_context` returns early without caching
(optimizer.py:165-178), so the second identical call still reports
`cache_used = false`. -/
theorem optimizeCache_counterexample :
    (optimizeContext
      { maxSizeBytes := 100, ttlSeconds := 100, compressionEnabled := false }
      cexDeps 0 "hi".toList "general" "task" 100
      ((optimizeContext
        { maxSizeBytes := 100, ttlSeconds := 100, compressionEnabled := false }
        cexDeps 0 "hi".toList "general" "task" 100
        (emptyCacheState OptMeta)).2)).1.cacheUsed = false ∧
    (optimizeContext
      { maxSizeBytes := 100, ttlSeconds := 100, compressionEnabled := false }
      cexDeps 0 "hi".toList "general" "task" 100
      ((optimizeContext
        { maxSizeBytes := 100, ttlSeconds := 100, compressionEnabled := false }
        cexDeps 0 "hi".toList "general" "task" 100
        (emptyCacheState OptMeta)).2)).1.optimizedContent = "hi".toList := by
  constructor
  · decide
  · decide

/-- Claim C3, amended.  With caching enabled, when the first of two
consecutive identical `optimize_context` calls misses the cache and
actually optimizes (token count above target), produces non-empty output,
the entry does not expire in between, and stored-payload compression
round-trips, then the second call reports `cache_used = true` and returns
byte-identical optimized output.  When no optimization is needed the result
is not cached, so the second call reports `cache_used = false`
(`optimizeCache_counterexample`) though its output is still identical. -/
theorem optimizeContext_cacheRoundtrip (cfg : CacheConfig) (d : OptDeps)
    (t1 t2 : ℤ) (content : PyStr) (agentType taskDescription : String)
    (targetTokens : ℤ) (s : CacheState OptMeta)
    (r1 : OptimizationResult) (st1 : CacheState OptMeta)
    (hc1 : optimizeContext cfg d t1 content agentType taskDescription
      targetTokens s = (r1, st1))
    (hmiss : (getOp cfg d.gunz t1
      (generateCacheKey d.h content
        [("agent_type", ParamValue.s agentType),
         ("task_description", ParamValue.s taskDescription),
         ("target_tokens", ParamValue.i targetTokens),
         ("strategy", ParamValue.s d.strategyName)]) s).1 = none)
    (htok : targetTokens < (d.countTokens content (d.analyzeType content) : ℤ))
    (hne : r1.optimizedContent ≠ [])
    (hexp : ¬(t2 - t1 > cfg.ttlSeconds))
    (hrt : d.gunz (d.gz r1.optimizedContent) = r1.optimizedContent) :
    (optimizeContext cfg d t2 content agentType taskDescription targetTokens
      st1).1.cacheUsed = true ∧
    (optimizeContext cfg d t2 content agentType taskDescription targetTokens
      st1).1.optimizedContent = r1.optimizedContent := by
  rw [optimizeContext] at hc1
  dsimp only at hc1
  rw [hmiss] at hc1
  dsimp only at hc1
  rw [if_neg (by omega)] at hc1
  have hr1 := congrArg Prod.fst hc1
  have hst1 := congrArg Prod.snd hc1
  dsimp only at hr1 hst1
  rw [← hr1] at hne hrt
  dsimp only at hne hrt
  rw [optimizeContext]
  dsimp only
  rw [← hst1]
  rw [setOp_getOp_roundtrip cfg d.gz d.gunz t1 t2 _ _ _ _ hne hexp hrt]
  dsimp only
  rw [← hr1]
  exact ⟨rfl, rfl⟩

/-- Witness for C3: a concrete miss-then-hit pair of calls on a 4-character
payload with a 2-token target. -/
theorem optimizeContext_cacheRoundtrip_witness :
    (optimizeContext
      { maxSizeBytes := 100, ttlSeconds := 100, compressionEnabled := false }
      cexDeps 0 "aaaa".toList "general" "task" 2
      ((optimizeContext
        { maxSizeBytes := 100, ttlSeconds := 100, compressionEnabled := false }
        cexDeps 0 "aaaa".toList "general" "task" 2
        (emptyCacheState OptMeta)).2)).1.cacheUsed = true :=
  (optimizeContext_cacheRoundtrip
    { maxSizeBytes := 100, ttlSeconds := 100, compressionEnabled := false }
    cexDeps 0 0 "aaaa".toList "general" "task" 2 (emptyCacheState OptMeta)
    _ _ rfl (by decide) (by decide) (by decide) (by decide) (by decide)).1

/-! ## Claim C4: line splitting and joining -/

theorem splitNl_ne_nil (s : PyStr) : splitNl s ≠ [] := by
  induction s with
  | nil => simp [splitNl]
  | cons c t ih =>
    rw [splitNl]
    cases h : splitNl t with
    | nil => simp
    | cons l ls =>
      dsimp only
      split <;> simp

theorem splitNl_of_no_newline (s : PyStr) (h : '\n' ∉ s) : splitNl s = [s] := by
  induction s with
  | nil => rfl
  | cons c t ih =>
    have hc : c ≠ '\n' := fun hc => h (hc ▸ List.mem_cons_self c t)
    have ht : '\n' ∉ t := fun hm => h (List.mem_cons_of_mem c hm)
    rw [splitNl, ih ht]
    simp [hc]

theorem splitNl_append_newline (l t : PyStr) (h : '\n' ∉ l) :
    splitNl (l ++ '\n' :: t) = l :: splitNl t := by
  induction l with
  | nil =>
    rw [List.nil_append, splitNl]
    cases h2 : splitNl t with
    | nil => exact absurd h2 (splitNl_ne_nil t)
    | cons a as => simp
  | cons c l ih =>
    have hc : c ≠ '\n' := fun hc => h (hc ▸ List.mem_cons_self c l)
    have hl : '\n' ∉ l := fun hm => h (List.mem_cons_of_mem c hm)
    rw [List.cons_append, splitNl, ih hl]
    simp [hc]

theorem splitNl_mem_no_newline (s : PyStr) :
    ∀ piece ∈ splitNl s, '\n' ∉ piece := by
  induction s with
  | nil =>
    intro piece hp
    simp only [splitNl, List.mem_singleton] at hp
    simp [hp]
  | cons c t ih =>
    intro piece hp
    rw [splitNl] at hp
    rcases h : splitNl t with - | ⟨l, ls⟩
    · exact absurd h (splitNl_ne_nil t)
    · rw [h] at hp
      dsimp only at hp
      by_cases hc : c = '\n'
      · rw [if_pos hc] at hp
        rcases List.mem_cons.mp hp with rfl | hp
        · simp
        · exact ih piece (h ▸ hp)
      · rw [if_neg hc] at hp
        rcases List.mem_cons.mp hp with rfl | hp
        · intro hmem
          rcases List.mem_cons.mp hmem with h1 | h1
          · exact hc h1.symm
          · exact ih l (h ▸ List.mem_cons_self l ls) h1
        · exact ih piece (h ▸ List.mem_cons_of_mem l hp)

theorem pySplitlines_mem_no_newline (s : PyStr) :
    ∀ l ∈ pySplitlines s, '\n' ∉ l := by
  intro l hl
  rw [pySplitlines] at hl
  rcases h : splitNl s with - | ⟨a, as⟩
  · exact absurd h (splitNl_ne_nil s)
  · rw [h] at hl
    dsimp only at hl
    split at hl
    · exact splitNl_mem_no_newline s l (h ▸ (List.dropLast_sublist (a :: as)).subset hl)
    · exact splitNl_mem_no_newline s l (h ▸ hl)

theorem splitNl_joinNl : ∀ ls : List PyStr, ls ≠ [] →
    (∀ l ∈ ls, '\n' ∉ l) → splitNl (joinNl ls) = ls := by
  intro ls
  induction ls with
  | nil => intro h; exact absurd rfl h
  | cons l ls ih =>
    intro _hne h
    cases ls with
    | nil =>
      rw [joinNl]
      exact splitNl_of_no_newline l (h l (List.mem_cons_self l []))
    | cons l2 ls2 =>
      rw [joinNl, splitNl_append_newline l _ (h l (List.mem_cons_self l _)),
        ih (by simp) (fun x hx => h x (List.mem_cons_of_mem l hx))]

theorem pySplitlines_joinNl (ls : List PyStr) (h1 : ∀ l ∈ ls, '\n' ∉ l)
    (h2 : ls.getLast? ≠ some []) : pySplitlines (joinNl ls) = ls := by
  cases ls with
  | nil => rfl
  | cons l ls =>
    rw [pySplitlines]
    rcases h : splitNl (joinNl (l :: ls)) with - | ⟨a, as⟩
    · exact absurd h (splitNl_ne_nil _)
    · rw [splitNl_joinNl (l :: ls) (by simp) h1] at h
      rw [h] at h2 ⊢
      dsimp only
      rw [if_neg h2]

/-! ## Claim C4: whitespace-squeezing and stripping lemmas -/

theorem squeeze_idem (x : PyStr) :
    squeezeAux false (squeezeAux false x) = squeezeAux false x ∧
    squeezeAux false (squeezeAux true x) = squeezeAux true x ∧
    squeezeAux true (squeezeAux true x) = squeezeAux true x := by
  induction x with
  | nil => exact ⟨rfl, rfl, rfl⟩
  | cons c t ih =>
    obtain ⟨ihC, ihD, ihE⟩ := ih
    have hsp : isSpaceTab ' ' = true := by decide
    cases hc : isSpaceTab c with
    | false =>
      refine ⟨?_, ?_, ?_⟩ <;> simp [squeezeAux, hc, ihC, ihD, ihE]
    | true =>
      refine ⟨?_, ?_, ?_⟩ <;> simp [squeezeAux, hc, hsp, ihC, ihD, ihE]

theorem squeezeAux_getLast? : ∀ (x : PyStr) (flag : Bool) (d : Char),
    x.getLast? = some d → isSpaceTab d = false →
    (squeezeAux flag x).getLast? = some d := by
  intro x
  induction x with
  | nil => intro flag d h _; simp at h
  | cons c t ih =>
    intro flag d h hd
    cases t with
    | nil =>
      simp only [List.getLast?_singleton, Option.some.injEq] at h
      subst h
      rw [squeezeAux]
      simp [hd, squeezeAux]
    | cons c2 t2 =>
      have h' : (c2 :: t2).getLast? = some d := by
        rwa [List.getLast?_cons_cons] at h
      by_cases hcs : isSpaceTab c = true
      · have hz := ih true d h' hd
        rcases hz2 : squeezeAux true (c2 :: t2) with - | ⟨z1, zs⟩
        · rw [hz2] at hz
          simp at hz
        · rw [hz2] at hz
          cases flag with
          | true =>
            have he : squeezeAux true (c :: c2 :: t2) = squeezeAux true (c2 :: t2) := by
              rw [squeezeAux]
              simp [hcs]
            rw [he, hz2]
            exact hz
          | false =>
            have he : squeezeAux false (c :: c2 :: t2) =
                ' ' :: squeezeAux true (c2 :: t2) := by
              rw [squeezeAux]
              simp [hcs]
            rw [he, hz2, List.getLast?_cons_cons]
            exact hz
      · have hcs' : isSpaceTab c = false := bool_eq_false_of_ne_true hcs
        have hz := ih false d h' hd
        rcases hz2 : squeezeAux false (c2 :: t2) with - | ⟨z1, zs⟩
        · rw [hz2] at hz
          simp at hz
        · rw [hz2] at hz
          have he : squeezeAux flag (c :: c2 :: t2) =
              c :: squeezeAux false (c2 :: t2) := by
            rw [squeezeAux]
            simp [hcs']
          rw [he, hz2, List.getLast?_cons_cons]
          exact hz

theorem mem_squeezeAux : ∀ (x : PyStr) (flag : Bool) (c : Char),
    c ∈ squeezeAux flag x → c = ' ' ∨ c ∈ x := by
  intro x
  induction x with
  | nil => intro flag c hc; simp [squeezeAux] at hc
  | cons a t ih =>
    intro flag c hc
    rw [squeezeAux] at hc
    by_cases ha : isSpaceTab a = true
    · simp only [ha, if_true] at hc
      cases flag with
      | true =>
        rcases ih true c hc with h | h
        · exact Or.inl h
        · exact Or.inr (List.mem_cons_of_mem a h)
      | false =>
        rcases List.mem_cons.mp hc with rfl | hc
        · exact Or.inl rfl
        · rcases ih true c hc with h | h
          · exact Or.inl h
          · exact Or.inr (List.mem_cons_of_mem a h)
    · simp only [bool_eq_false_of_ne_true ha, Bool.false_eq_true, if_false] at hc
      rcases List.mem_cons.mp hc with rfl | hc
      · exact Or.inr (List.mem_cons_self c t)
      · rcases ih false c hc with h | h
        · exact Or.inl h
        · exact Or.inr (List.mem_cons_of_mem a h)

theorem dropWhile_head_false {p : Char → Bool} :
    ∀ (x : PyStr) (c : Char) (t : PyStr), x.dropWhile p = c :: t → p c = false := by
  intro x
  induction x with
  | nil => intro c t h; simp at h
  | cons a y ih =>
    intro c t h
    rw [List.dropWhile_cons] at h
    by_cases pa : p a = true
    · rw [if_pos pa] at h
      exact ih c t h
    · rw [if_neg pa] at h
      injection h with h1 h2
      rw [← h1]
      exact bool_eq_false_of_ne_true pa

theorem lstripPy_of_head (c : Char) (t : PyStr) (h : pyIsSpace c = false) :
    lstripPy (c :: t) = c :: t := by
  rw [lstripPy, List.dropWhile_cons, h]
  simp

theorem rstripPy_getLast? : ∀ (x : PyStr) (d : Char),
    (rstripPy x).getLast? = some d → pyIsSpace d = false := by
  intro x
  induction x with
  | nil => intro d h; simp [rstripPy] at h
  | cons c t ih =>
    intro d h
    rw [rstripPy] at h
    by_cases hb : ((rstripPy t).isEmpty && pyIsSpace c) = true
    · rw [if_pos hb] at h
      simp at h
    · rw [if_neg hb] at h
      rcases hr : rstripPy t with - | ⟨r1, rs⟩
      · rw [hr] at h hb
        simp only [List.getLast?_singleton, Option.some.injEq] at h
        subst h
        simpa using hb
      · rw [hr] at h
        rw [List.getLast?_cons_cons] at h
        exact ih d (hr ▸ h)

theorem rstripPy_eq_self : ∀ (x : PyStr) (d : Char), x.getLast? = some d →
    pyIsSpace d = false → rstripPy x = x := by
  intro x
  induction x with
  | nil => intro d h _; simp at h
  | cons c t ih =>
    intro d h hd
    cases t with
    | nil =>
      simp only [List.getLast?_singleton, Option.some.injEq] at h
      subst h
      rw [rstripPy]
      simp [rstripPy, hd]
    | cons c2 t2 =>
      have h' : (c2 :: t2).getLast? = some d := by
        rwa [List.getLast?_cons_cons] at h
      have ht := ih d h' hd
      rw [rstripPy, ht]
      simp

theorem rstripPy_head : ∀ (x : PyStr) (c : Char) (t : PyStr),
    rstripPy x = c :: t → ∃ t0, x = c :: t0 := by
  intro x c t h
  cases x with
  | nil => simp [rstripPy] at h
  | cons a y =>
    rw [rstripPy] at h
    by_cases hb : ((rstripPy y).isEmpty && pyIsSpace a) = true
    · rw [if_pos hb] at h
      exact absurd h (by simp)
    · rw [if_neg hb] at h
      injection h with h1 h2
      exact ⟨y, by rw [h1]⟩

theorem mem_rstripPy : ∀ (x : PyStr) (c : Char), c ∈ rstripPy x → c ∈ x := by
  intro x
  induction x with
  | nil => intro c h; simp [rstripPy] at h
  | cons a y ih =>
    intro c h
    rw [rstripPy] at h
    by_cases hb : ((rstripPy y).isEmpty && pyIsSpace a) = true
    · rw [if_pos hb] at h
      simp at h
    · rw [if_neg hb] at h
      rcases List.mem_cons.mp h with rfl | h
      · exact List.mem_cons_self c y
      · exact List.mem_cons_of_mem a (ih c h)

theorem stripPy_head (l : PyStr) (c : Char) (t : PyStr)
    (h : stripPy l = c :: t) : pyIsSpace c = false := by
  rw [stripPy] at h
  obtain ⟨t0, ht0⟩ := rstripPy_head (lstripPy l) c t h
  exact dropWhile_head_false l c t0 ht0

theorem stripPy_getLast? (l : PyStr) (d : Char)
    (h : (stripPy l).getLast? = some d) : pyIsSpace d = false :=
  rstripPy_getLast? (lstripPy l) d h

theorem mem_stripPy (l : PyStr) (c : Char) (h : c ∈ stripPy l) : c ∈ l := by
  rw [stripPy] at h
  have h2 := mem_rstripPy (lstripPy l) c h
  exact (List.dropWhile_sublist pyIsSpace).subset h2

theorem lstripPy_replicate_append (k : Nat) (y : PyStr) :
    lstripPy (List.replicate k ' ' ++ y) = lstripPy y := by
  induction k with
  | zero => simp
  | succ k ih =>
    rw [List.replicate_succ, List.cons_append, lstripPy, List.dropWhile_cons]
    have : pyIsSpace ' ' = true := by decide
    rw [this]
    simpa [lstripPy] using ih

theorem leadingWs_replicate_append (k : Nat) (c : Char) (t : PyStr)
    (hc : pyIsSpace c = false) :
    leadingWs (List.replicate k ' ' ++ c :: t) = k := by
  induction k with
  | zero =>
    simp only [List.replicate_zero, List.nil_append, leadingWs,
      List.takeWhile_cons, hc]
    simp
  | succ k ih =>
    rw [List.replicate_succ, List.cons_append, leadingWs, List.takeWhile_cons]
    have hsp : pyIsSpace ' ' = true := by decide
    simp only [hsp, if_true, List.length_cons]
    rw [leadingWs] at ih
    rw [ih]

/-! ## Claim C4: line-level fixed points -/

theorem isSpaceTab_false (c : Char) (h : pyIsSpace c = false) :
    isSpaceTab c = false := by
  rw [isSpaceTab]
  rw [pyIsSpace] at h
  simp only [Bool.or_eq_false_iff] at h ⊢
  exact ⟨h.1.1.1.1.1, h.1.1.1.1.2⟩

theorem stripPy_nonblank_decomp (l : PyStr) (h : isBlank l = false) :
    ∃ c t0, stripPy l = c :: t0 ∧ pyIsSpace c = false ∧
      squeezeWs (stripPy l) = c :: squeezeAux false t0 := by
  have hne : stripPy l ≠ [] := by
    intro he
    rw [isBlank, he] at h
    simp at h
  obtain ⟨c, t0, hsp⟩ := List.exists_cons_of_ne_nil hne
  have hc := stripPy_head l c t0 hsp
  refine ⟨c, t0, hsp, hc, ?_⟩
  rw [hsp]
  simp [squeezeWs, squeezeAux, isSpaceTab_false c hc]

theorem squeezeStrip_getLast (l : PyStr) (h : isBlank l = false) :
    ∃ d, (squeezeWs (stripPy l)).getLast? = some d ∧ pyIsSpace d = false := by
  obtain ⟨c, t0, hsp, hc, hsq⟩ := stripPy_nonblank_decomp l h
  rcases hgl : (stripPy l).getLast? with - | d
  · rw [List.getLast?_eq_none_iff] at hgl
    rw [hgl] at hsp
    exact absurd hsp (by simp)
  · have hd := stripPy_getLast? l d hgl
    refine ⟨d, ?_, hd⟩
    rw [squeezeWs]
    exact squeezeAux_getLast? (stripPy l) false d hgl (isSpaceTab_false d hd)

theorem stripPy_squeezeStrip (l : PyStr) (h : isBlank l = false) :
    stripPy (squeezeWs (stripPy l)) = squeezeWs (stripPy l) := by
  obtain ⟨c, t0, hsp, hc, hsq⟩ := stripPy_nonblank_decomp l h
  obtain ⟨d, hdl, hd⟩ := squeezeStrip_getLast l h
  rw [hsq] at hdl
  rw [stripPy, hsq, lstripPy_of_head c _ hc]
  exact rstripPy_eq_self (c :: squeezeAux false t0) d hdl hd

theorem leadingWs_squeezeStrip (l : PyStr) (h : isBlank l = false) :
    leadingWs (squeezeWs (stripPy l)) = 0 := by
  obtain ⟨c, t0, hsp, hc, hsq⟩ := stripPy_nonblank_decomp l h
  rw [hsq, leadingWs, List.takeWhile_cons, hc]
  simp

theorem squeezeWs_idem (x : PyStr) : squeezeWs (squeezeWs x) = squeezeWs x :=
  (squeeze_idem x).1

theorem squeezeStrip_nonblank (l : PyStr) (h : isBlank l = false) :
    isBlank (squeezeWs (stripPy l)) = false := by
  obtain ⟨c, t0, hsp, hc, hsq⟩ := stripPy_nonblank_decomp l h
  rw [isBlank, stripPy_squeezeStrip l h, hsq]
  simp

theorem mem_squeezeStrip (l : PyStr) (c : Char)
    (h : c ∈ squeezeWs (stripPy l)) : c = ' ' ∨ c ∈ l := by
  rcases mem_squeezeAux (stripPy l) false c h with h1 | h1
  · exact Or.inl h1
  · exact Or.inr (mem_stripPy l c h1)

theorem stripPy_replicate_append (k : Nat) (y : PyStr) :
    stripPy (List.replicate k ' ' ++ y) = stripPy y := by
  simp only [stripPy]
  rw [lstripPy_replicate_append]

theorem codeCompressLine_nonblank (l : PyStr) (h : isBlank l = false) :
    isBlank (codeCompressLine l) = false := by
  obtain ⟨c, t0, hsp, hc, hsq⟩ := stripPy_nonblank_decomp l h
  rw [isBlank, codeCompressLine, stripPy_replicate_append,
    stripPy_squeezeStrip l h, hsq]
  simp

theorem leadingWs_codeCompressLine (l : PyStr) (h : isBlank l = false) :
    leadingWs (codeCompressLine l) = leadingWs l := by
  obtain ⟨c, t0, hsp, hc, hsq⟩ := stripPy_nonblank_decomp l h
  rw [codeCompressLine, hsq]
  exact leadingWs_replicate_append (leadingWs l) c _ hc

theorem codeCompressLine_idem (l : PyStr) (h : isBlank l = false) :
    codeCompressLine (codeCompressLine l) = codeCompressLine l := by
  conv_lhs => rw [codeCompressLine]
  rw [leadingWs_codeCompressLine l h, codeCompressLine,
    stripPy_replicate_append, stripPy_squeezeStrip l h, squeezeWs_idem]

theorem mem_codeCompressLine (l : PyStr) (c : Char)
    (h : c ∈ codeCompressLine l) : c = ' ' ∨ c ∈ l := by
  rw [codeCompressLine] at h
  rcases List.mem_append.mp h with h1 | h1
  · exact Or.inl (List.eq_of_mem_replicate h1)
  · exact mem_squeezeStrip l c h1

theorem genCompressLine_lt4 (l : PyStr) (h : leadingWs l < 4) :
    genCompressLine l = squeezeWs (stripPy l) := by
  rw [genCompressLine]
  by_cases h0 : leadingWs l > 0
  · rw [if_pos h0, genIndentWidth, Nat.div_eq_of_lt h]
    simp
  · rw [if_neg h0]

theorem genCompressLine_blank (l : PyStr) (h : isBlank l = true)
    (h4 : leadingWs l < 4) : genCompressLine l = [] := by
  rw [isBlank] at h
  simp only [List.isEmpty_iff] at h
  rw [genCompressLine_lt4 l h4, squeezeWs, h]
  rfl

theorem genCompressLine_nil : genCompressLine [] = [] := by decide

theorem genCompressLine_squeezeStrip (l : PyStr) (h : isBlank l = false) :
    genCompressLine (squeezeWs (stripPy l)) = squeezeWs (stripPy l) := by
  have h0 : leadingWs (squeezeWs (stripPy l)) = 0 := leadingWs_squeezeStrip l h
  rw [genCompressLine_lt4 _ (by rw [h0]; decide), stripPy_squeezeStrip l h,
    squeezeWs_idem]

theorem mem_genCompressLine (l : PyStr) (c : Char)
    (h : c ∈ genCompressLine l) : c = ' ' ∨ c ∈ l := by
  rw [genCompressLine] at h
  by_cases h0 : leadingWs l > 0
  · rw [if_pos h0] at h
    rcases List.mem_append.mp h with h1 | h1
    · exact Or.inl (List.eq_of_mem_replicate h1)
    · exact mem_squeezeStrip l c h1
  · rw [if_neg h0] at h
    exact mem_squeezeStrip l c h

/-! ## Claim C4: line-list lemmas -/

theorem runsLe_mono : ∀ (ls : List PyStr) (n : Nat),
    runsLe 1 n ls = true → runsLe 2 n ls = true := by
  intro ls
  induction ls with
  | nil => intro n _; rfl
  | cons l t ih =>
    intro n h
    rw [runsLe] at h ⊢
    by_cases hb : isBlank l = true
    · rw [if_pos hb] at h ⊢
      rw [Bool.and_eq_true] at h ⊢
      have h1 := of_decide_eq_true h.1
      exact ⟨decide_eq_true (by omega), ih (n + 1) h.2⟩
    · rw [if_neg hb] at h ⊢
      exact ih 0 h

theorem keepBlank2Aux_sublist : ∀ (ls : List PyStr) (n : Nat),
    (keepBlank2Aux n ls).Sublist ls := by
  intro ls
  induction ls with
  | nil => intro n; simp [keepBlank2Aux]
  | cons l t ih =>
    intro n
    rw [keepBlank2Aux]
    by_cases hb : isBlank l = true
    · rw [if_pos hb]
      by_cases h2 : n + 1 ≤ 2
      · rw [if_pos h2]
        exact List.Sublist.cons₂ l (ih (n + 1))
      · rw [if_neg h2]
        exact List.Sublist.cons l (ih (n + 1))
    · rw [if_neg hb]
      exact List.Sublist.cons₂ l (ih 0)

theorem keepBlank2Aux_getLast? : ∀ (ls : List PyStr) (n : Nat) (l : PyStr),
    ls.getLast? = some l → isBlank l = false →
    (keepBlank2Aux n ls).getLast? = some l := by
  intro ls
  induction ls with
  | nil => intro n l h _; simp at h
  | cons a t ih =>
    intro n l h hl
    cases t with
    | nil =>
      simp only [List.getLast?_singleton, Option.some.injEq] at h
      subst h
      rw [keepBlank2Aux, if_neg (by rw [hl]; exact Bool.false_ne_true)]
      simp [keepBlank2Aux]
    | cons b t2 =>
      have h' : (b :: t2).getLast? = some l := by
        rwa [List.getLast?_cons_cons] at h
      rw [keepBlank2Aux]
      by_cases hb : isBlank a = true
      · rw [if_pos hb]
        by_cases h2 : n + 1 ≤ 2
        · rw [if_pos h2]
          have hrec := ih (n + 1) l h' hl
          rcases hrx : keepBlank2Aux (n + 1) (b :: t2) with - | ⟨r1, rs⟩
          · rw [hrx] at hrec
            simp at hrec
          · rw [hrx] at hrec
            rw [List.getLast?_cons_cons]
            exact hrec
        · rw [if_neg h2]
          exact ih (n + 1) l h' hl
      · rw [if_neg hb]
        have hrec := ih 0 l h' hl
        rcases hrx : keepBlank2Aux 0 (b :: t2) with - | ⟨r1, rs⟩
        · rw [hrx] at hrec
          simp at hrec
        · rw [hrx] at hrec
          rw [List.getLast?_cons_cons]
          exact hrec

theorem keepBlank2Aux_runs : ∀ (ls : List PyStr) (n m : Nat), n ≤ m →
    runsLe 2 n (keepBlank2Aux m ls) = true := by
  intro ls
  induction ls with
  | nil => intro n m _; rfl
  | cons l t ih =>
    intro n m hnm
    rw [keepBlank2Aux]
    by_cases hb : isBlank l = true
    · rw [if_pos hb]
      by_cases h2 : m + 1 ≤ 2
      · rw [if_pos h2, runsLe, if_pos hb, Bool.and_eq_true]
        exact ⟨decide_eq_true (by omega), ih (n + 1) (m + 1) (by omega)⟩
      · rw [if_neg h2]
        exact ih n (m + 1) (by omega)
    · rw [if_neg hb, runsLe, if_neg hb]
      exact ih 0 0 le_rfl

theorem keepBlank2Aux_id : ∀ (ls : List PyStr) (n : Nat),
    runsLe 2 n ls = true → keepBlank2Aux n ls = ls := by
  intro ls
  induction ls with
  | nil => intro n _; rfl
  | cons l t ih =>
    intro n h
    rw [runsLe] at h
    rw [keepBlank2Aux]
    by_cases hb : isBlank l = true
    · rw [if_pos hb] at h ⊢
      rw [Bool.and_eq_true] at h
      rw [if_pos (of_decide_eq_true h.1), ih (n + 1) h.2]
    · rw [if_neg hb] at h ⊢
      rw [ih 0 h]

theorem mem_codeCompressLinesAux : ∀ (ls : List PyStr) (flag : Bool)
    (m : PyStr), m ∈ codeCompressLinesAux flag ls →
    m = [] ∨ ∃ l, l ∈ ls ∧ isBlank l = false ∧ m = codeCompressLine l := by
  intro ls
  induction ls with
  | nil => intro flag m hm; simp [codeCompressLinesAux] at hm
  | cons l t ih =>
    intro flag m hm
    rw [codeCompressLinesAux] at hm
    by_cases hb : isBlank l = true
    · rw [if_pos hb] at hm
      by_cases hf : flag = true
      · rw [if_pos hf] at hm
        rcases ih true m hm with h1 | ⟨l0, hl0, hnb, hme⟩
        · exact Or.inl h1
        · exact Or.inr ⟨l0, List.mem_cons_of_mem l hl0, hnb, hme⟩
      · rw [if_neg hf] at hm
        rcases List.mem_cons.mp hm with rfl | hm2
        · exact Or.inl rfl
        · rcases ih true m hm2 with h1 | ⟨l0, hl0, hnb, hme⟩
          · exact Or.inl h1
          · exact Or.inr ⟨l0, List.mem_cons_of_mem l hl0, hnb, hme⟩
    · rw [if_neg hb] at hm
      have hbf : isBlank l = false := bool_eq_false_of_ne_true hb
      rcases List.mem_cons.mp hm with rfl | hm2
      · exact Or.inr ⟨l, List.mem_cons_self l t, hbf, rfl⟩
      · rcases ih false m hm2 with h1 | ⟨l0, hl0, hnb, hme⟩
        · exact Or.inl h1
        · exact Or.inr ⟨l0, List.mem_cons_of_mem l hl0, hnb, hme⟩

theorem codeCompressLinesAux_runs : ∀ (ls : List PyStr),
    runsLe 1 0 (codeCompressLinesAux false ls) = true ∧
    runsLe 1 1 (codeCompressLinesAux true ls) = true := by
  intro ls
  induction ls with
  | nil => exact ⟨rfl, rfl⟩
  | cons l t ih =>
    obtain ⟨ih0, ih1⟩ := ih
    constructor
    · rw [codeCompressLinesAux]
      by_cases hb : isBlank l = true
      · rw [if_pos hb, if_neg Bool.false_ne_true, runsLe, if_pos (by decide),
          Bool.and_eq_true]
        exact ⟨decide_eq_true (by omega), ih1⟩
      · have hbf := bool_eq_false_of_ne_true hb
        have hcc := codeCompressLine_nonblank l hbf
        rw [if_neg hb, runsLe, if_neg (by rw [hcc]; exact Bool.false_ne_true)]
        exact ih0
    · rw [codeCompressLinesAux]
      by_cases hb : isBlank l = true
      · rw [if_pos hb, if_pos rfl]
        exact ih1
      · have hbf := bool_eq_false_of_ne_true hb
        have hcc := codeCompressLine_nonblank l hbf
        rw [if_neg hb, runsLe, if_neg (by rw [hcc]; exact Bool.false_ne_true)]
        exact ih0

theorem codeCompressLinesAux_getLast? : ∀ (ls : List PyStr) (flag : Bool)
    (l : PyStr), ls.getLast? = some l → isBlank l = false →
    (codeCompressLinesAux flag ls).getLast? = some (codeCompressLine l) := by
  intro ls
  induction ls with
  | nil => intro flag l h _; simp at h
  | cons a t ih =>
    intro flag l h hl
    cases t with
    | nil =>
      simp only [List.getLast?_singleton, Option.some.injEq] at h
      subst h
      rw [codeCompressLinesAux, if_neg (by rw [hl]; exact Bool.false_ne_true)]
      simp [codeCompressLinesAux]
    | cons b t2 =>
      have h' : (b :: t2).getLast? = some l := by
        rwa [List.getLast?_cons_cons] at h
      rw [codeCompressLinesAux]
      by_cases hb : isBlank a = true
      · rw [if_pos hb]
        by_cases hf : flag = true
        · rw [if_pos hf]
          exact ih true l h' hl
        · rw [if_neg hf]
          have hrec := ih true l h' hl
          rcases hrx : codeCompressLinesAux true (b :: t2) with - | ⟨r1, rs⟩
          · rw [hrx] at hrec
            simp at hrec
          · rw [hrx] at hrec
            rw [List.getLast?_cons_cons]
            exact hrec
      · rw [if_neg hb]
        have hrec := ih false l h' hl
        rcases hrx : codeCompressLinesAux false (b :: t2) with - | ⟨r1, rs⟩
        · rw [hrx] at hrec
          simp at hrec
        · rw [hrx] at hrec
          rw [List.getLast?_cons_cons]
          exact hrec

theorem codeCompressLinesAux_id : ∀ (ls : List PyStr),
    (∀ l ∈ ls, isBlank l = true → l = []) →
    (∀ l ∈ ls, isBlank l = false → codeCompressLine l = l) →
    (runsLe 1 0 ls = true → codeCompressLinesAux false ls = ls) ∧
    (runsLe 1 1 ls = true → codeCompressLinesAux true ls = ls) := by
  intro ls
  induction ls with
  | nil => intro _ _; exact ⟨fun _ => rfl, fun _ => rfl⟩
  | cons l t ih =>
    intro h1 h2
    have h1t : ∀ x ∈ t, isBlank x = true → x = [] :=
      fun x hx => h1 x (List.mem_cons_of_mem l hx)
    have h2t : ∀ x ∈ t, isBlank x = false → codeCompressLine x = x :=
      fun x hx => h2 x (List.mem_cons_of_mem l hx)
    obtain ⟨ih0, ih1⟩ := ih h1t h2t
    constructor
    · intro hr
      rw [runsLe] at hr
      rw [codeCompressLinesAux]
      by_cases hb : isBlank l = true
      · rw [if_pos hb] at hr ⊢
        rw [if_neg Bool.false_ne_true]
        rw [Bool.and_eq_true] at hr
        rw [ih1 hr.2, h1 l (List.mem_cons_self l t) hb]
      · rw [if_neg hb] at hr ⊢
        rw [h2 l (List.mem_cons_self l t) (bool_eq_false_of_ne_true hb), ih0 hr]
    · intro hr
      rw [runsLe] at hr
      rw [codeCompressLinesAux]
      by_cases hb : isBlank l = true
      · rw [if_pos hb] at hr
        rw [Bool.and_eq_true] at hr
        exact absurd (of_decide_eq_true hr.1) (by omega)
      · rw [if_neg hb] at hr ⊢
        rw [h2 l (List.mem_cons_self l t) (bool_eq_false_of_ne_true hb), ih0 hr]

/-! ## Claim C4: top-level idempotence of the safe passes -/

theorem codeSafePrune_fix (s : PyStr) (h : noTrailingBlank s = true) :
    codeSafePrune (codeSafePrune s) = codeSafePrune s := by
  rw [noTrailingBlank] at h
  rcases hgl : (pySplitlines s).getLast? with - | l
  · rw [List.getLast?_eq_none_iff] at hgl
    have e1 : codeSafePrune s = [] := by
      rw [codeSafePrune, codeRemoveExcessiveBlankLines, hgl]
      decide
    rw [e1]
    decide
  · rw [hgl] at h
    simp only [Bool.not_eq_true'] at h
    have hnl : ∀ x ∈ pySplitlines s, '\n' ∉ x := pySplitlines_mem_no_newline s
    have hnl1 : ∀ x ∈ keepBlank2Aux 0 (pySplitlines s), '\n' ∉ x :=
      fun x hx => hnl x ((keepBlank2Aux_sublist (pySplitlines s) 0).subset hx)
    have hgl1 : (keepBlank2Aux 0 (pySplitlines s)).getLast? = some l :=
      keepBlank2Aux_getLast? (pySplitlines s) 0 l hgl h
    have hlne : l ≠ [] := by
      intro he
      rw [he] at h
      exact absurd h (by decide)
    have hsp1 : pySplitlines (joinNl (keepBlank2Aux 0 (pySplitlines s))) =
        keepBlank2Aux 0 (pySplitlines s) :=
      pySplitlines_joinNl _ hnl1
        (by rw [hgl1]; exact fun hc => hlne (Option.some.inj hc))
    have e2 : codeSafePrune s =
        joinNl (codeCompressLinesAux false (keepBlank2Aux 0 (pySplitlines s))) := by
      rw [codeSafePrune, codeCompressWhitespace, codeRemoveExcessiveBlankLines,
        hsp1]
    have hms_nl : ∀ m ∈ codeCompressLinesAux false
        (keepBlank2Aux 0 (pySplitlines s)), '\n' ∉ m := by
      intro m hm hcm
      rcases mem_codeCompressLinesAux _ false m hm with rfl | ⟨l0, hl0, hnb0, rfl⟩
      · simp at hcm
      · rcases mem_codeCompressLine l0 '\n' hcm with h1 | h1
        · exact absurd h1 (by decide)
        · exact hnl1 l0 hl0 h1
    have hms_gl : (codeCompressLinesAux false
        (keepBlank2Aux 0 (pySplitlines s))).getLast? =
          some (codeCompressLine l) :=
      codeCompressLinesAux_getLast? _ false l hgl1 h
    have hms_glne : codeCompressLine l ≠ [] := by
      have hnb := codeCompressLine_nonblank l h
      intro he
      rw [he] at hnb
      exact absurd hnb (by decide)
    have hsp2 : pySplitlines (joinNl (codeCompressLinesAux false
        (keepBlank2Aux 0 (pySplitlines s)))) =
          codeCompressLinesAux false (keepBlank2Aux 0 (pySplitlines s)) :=
      pySplitlines_joinNl _ hms_nl
        (by rw [hms_gl]; exact fun hc => hms_glne (Option.some.inj hc))
    have hms_blank : ∀ m ∈ codeCompressLinesAux false
        (keepBlank2Aux 0 (pySplitlines s)), isBlank m = true → m = [] := by
      intro m hm hbm
      rcases mem_codeCompressLinesAux _ false m hm with rfl | ⟨l0, hl0, hnb0, rfl⟩
      · rfl
      · rw [codeCompressLine_nonblank l0 hnb0] at hbm
        exact absurd hbm Bool.false_ne_true
    have hms_fix : ∀ m ∈ codeCompressLinesAux false
        (keepBlank2Aux 0 (pySplitlines s)), isBlank m = false →
          codeCompressLine m = m := by
      intro m hm hbm
      rcases mem_codeCompressLinesAux _ false m hm with rfl | ⟨l0, hl0, hnb0, rfl⟩
      · exact absurd hbm (by decide)
      · exact codeCompressLine_idem l0 hnb0
    have hms_runs : runsLe 1 0 (codeCompressLinesAux false
        (keepBlank2Aux 0 (pySplitlines s))) = true :=
      (codeCompressLinesAux_runs (keepBlank2Aux 0 (pySplitlines s))).1
    have step1 : codeRemoveExcessiveBlankLines (joinNl (codeCompressLinesAux
        false (keepBlank2Aux 0 (pySplitlines s)))) =
          joinNl (codeCompressLinesAux false
            (keepBlank2Aux 0 (pySplitlines s))) := by
      rw [codeRemoveExcessiveBlankLines, hsp2,
        keepBlank2Aux_id _ 0 (runsLe_mono _ 0 hms_runs)]
    have step2 : codeCompressWhitespace (joinNl (codeCompressLinesAux
        false (keepBlank2Aux 0 (pySplitlines s)))) =
          joinNl (codeCompressLinesAux false
            (keepBlank2Aux 0 (pySplitlines s))) := by
      rw [codeCompressWhitespace, hsp2,
        (codeCompressLinesAux_id _ hms_blank hms_fix).1 hms_runs]
    rw [e2, codeSafePrune, step1, step2]

theorem genSafePrune_fix (s : PyStr) (h : noTrailingBlank s = true)
    (h4 : indentsBelow4 s = true) :
    genSafePrune (genSafePrune s) = genSafePrune s := by
  rw [noTrailingBlank] at h
  rw [indentsBelow4, List.all_eq_true] at h4
  have h4' : ∀ x ∈ pySplitlines s, leadingWs x < 4 :=
    fun x hx => of_decide_eq_true (h4 x hx)
  rcases hgl : (pySplitlines s).getLast? with - | l
  · rw [List.getLast?_eq_none_iff] at hgl
    have e1 : genSafePrune s = [] := by
      rw [genSafePrune, genCompressWhitespace, hgl]
      decide
    rw [e1]
    decide
  · rw [hgl] at h
    simp only [Bool.not_eq_true'] at h
    have hlm : l ∈ pySplitlines s := List.mem_of_getLast?_eq_some hgl
    have hl4 : leadingWs l < 4 := h4' l hlm
    have hnl : ∀ x ∈ pySplitlines s, '\n' ∉ x := pySplitlines_mem_no_newline s
    have hms_nl : ∀ m ∈ (pySplitlines s).map genCompressLine, '\n' ∉ m := by
      intro m hm hcm
      rcases List.mem_map.mp hm with ⟨x, hx, rfl⟩
      rcases mem_genCompressLine x '\n' hcm with h1 | h1
      · exact absurd h1 (by decide)
      · exact hnl x hx h1
    have hms_gl : ((pySplitlines s).map genCompressLine).getLast? =
        some (genCompressLine l) := by
      rw [List.getLast?_map, hgl]
      rfl
    have hglb : isBlank (genCompressLine l) = false := by
      rw [genCompressLine_lt4 l hl4]
      exact squeezeStrip_nonblank l h
    have hglne : genCompressLine l ≠ [] := by
      intro he
      rw [he] at hglb
      exact absurd hglb (by decide)
    have hsp1 : pySplitlines (joinNl ((pySplitlines s).map genCompressLine)) =
        (pySplitlines s).map genCompressLine :=
      pySplitlines_joinNl _ hms_nl
        (by rw [hms_gl]; exact fun hc => hglne (Option.some.inj hc))
    have e2 : genSafePrune s =
        joinNl (keepBlank2Aux 0 ((pySplitlines s).map genCompressLine)) := by
      rw [genSafePrune, genCompressWhitespace, genRemoveExcessiveEmptyLines,
        hsp1]
    have hnl2 : ∀ m ∈ keepBlank2Aux 0 ((pySplitlines s).map genCompressLine),
        '\n' ∉ m :=
      fun m hm => hms_nl m ((keepBlank2Aux_sublist _ 0).subset hm)
    have hgl2 : (keepBlank2Aux 0
        ((pySplitlines s).map genCompressLine)).getLast? =
          some (genCompressLine l) :=
      keepBlank2Aux_getLast? _ 0 _ hms_gl hglb
    have hsp2 : pySplitlines (joinNl (keepBlank2Aux 0
        ((pySplitlines s).map genCompressLine))) =
          keepBlank2Aux 0 ((pySplitlines s).map genCompressLine) :=
      pySplitlines_joinNl _ hnl2
        (by rw [hgl2]; exact fun hc => hglne (Option.some.inj hc))
    have hfix : ∀ m ∈ keepBlank2Aux 0 ((pySplitlines s).map genCompressLine),
        genCompressLine m = m := by
      intro m hm
      have hm2 := (keepBlank2Aux_sublist _ 0).subset hm
      rcases List.mem_map.mp hm2 with ⟨x, hx, rfl⟩
      have hx4 := h4' x hx
      by_cases hbx : isBlank x = true
      · rw [genCompressLine_blank x hbx hx4]
        exact genCompressLine_nil
      · have hbxf := bool_eq_false_of_ne_true hbx
        rw [genCompressLine_lt4 x hx4]
        exact genCompressLine_squeezeStrip x hbxf
    have hruns : runsLe 2 0 (keepBlank2Aux 0
        ((pySplitlines s).map genCompressLine)) = true :=
      keepBlank2Aux_runs _ 0 0 le_rfl
    have stepA : genCompressWhitespace (joinNl (keepBlank2Aux 0
        ((pySplitlines s).map genCompressLine))) =
          joinNl (keepBlank2Aux 0 ((pySplitlines s).map genCompressLine)) := by
      rw [genCompressWhitespace, hsp2,
        (List.map_congr_left hfix).trans (List.map_id _)]
    have stepB : genRemoveExcessiveEmptyLines (joinNl (keepBlank2Aux 0
        ((pySplitlines s).map genCompressLine))) =
          joinNl (keepBlank2Aux 0 ((pySplitlines s).map genCompressLine)) := by
      rw [genRemoveExcessiveEmptyLines, hsp2, keepBlank2Aux_id _ 0 hruns]
    rw [e2, genSafePrune, stepA, stepB]

/-- C4 counterexample: neither safe-only pass is idempotent on all inputs.
`CodePruner._safe_prune` turns `"a\n\n\n"` into `"a\n"` (the final blank
line survives the blank-collapse as one empty line, and the final `join`
keeps the trailing newline) but a second application strips it to `"a"`;
`GenericPruner._safe_generic_prune` rewrites the 4-space indent of
`"    a"` to 2 spaces, and a second application removes it entirely. -/
theorem safePruneIdem_counterexample :
    codeSafePrune (codeSafePrune ('a' :: '\n' :: '\n' :: '\n' :: [])) ≠
      codeSafePrune ('a' :: '\n' :: '\n' :: '\n' :: []) ∧
    genSafePrune (genSafePrune (' ' :: ' ' :: ' ' :: ' ' :: 'a' :: [])) ≠
      genSafePrune (' ' :: ' ' :: ' ' :: ' ' :: 'a' :: []) := by
  constructor <;> decide

/-- C4 (amended): the safe-only passes are idempotent on every input whose
final line is not blank (for `CodePruner._safe_prune`, code_pruner.py:513-518)
and, additionally for `GenericPruner._safe_generic_prune`
(generic_pruner.py:274-279), every line of which is indented by fewer than 4
characters, so that the `'  ' * min(leading // 4, 8)` indent rewrite of
`_compress_whitespace` (generic_pruner.py:149-150) is the identity. -/
theorem safePruneIdem_amended (s : PyStr) :
    (noTrailingBlank s = true →
      codeSafePrune (codeSafePrune s) = codeSafePrune s) ∧
    (noTrailingBlank s = true → indentsBelow4 s = true →
      genSafePrune (genSafePrune s) = genSafePrune s) :=
  ⟨fun h => codeSafePrune_fix s h, fun h h4 => genSafePrune_fix s h h4⟩

/-- Witness for C4: the amended idempotence applied to the concrete inputs
`"a\nb"` (code) and `" x  y"` (generic). -/
theorem safePruneIdem_witness :
    codeSafePrune (codeSafePrune ('a' :: '\n' :: 'b' :: [])) =
      codeSafePrune ('a' :: '\n' :: 'b' :: []) ∧
    genSafePrune (genSafePrune (' ' :: 'x' :: ' ' :: ' ' :: 'y' :: [])) =
      genSafePrune (' ' :: 'x' :: ' ' :: ' ' :: 'y' :: []) :=
  ⟨(safePruneIdem_amended ('a' :: '\n' :: 'b' :: [])).1 (by decide),
   (safePruneIdem_amended (' ' :: 'x' :: ' ' :: ' ' :: 'y' :: [])).2
     (by decide) (by decide)⟩

end DevAgency
